import Mathlib

/-!
# Verification of the `json_study` lexing/parsing pipeline

Shallow embedding of the repository's character reader, lexer
(`src/lexer/mod.rs`) and recursive-descent parser (`src/lib.rs`).

Conventions of the embedding:

* The character stream is a `List Char` (one entry per Unicode scalar
  value, matching the Rust code's `char`-at-a-time view of the UTF-8
  input).
* Rust `Range<usize>` position ranges become `Nat × Nat` pairs
  `(start, end)`.
* Rust `f64` number payloads become `ℚ`: the lexer's number token
  carries the exact decimal value of the literal.  The accept/reject
  behaviour of Rust's `str::parse::<f64>` (the part the code relies on
  for error detection) is modelled exactly on the character set the
  lexer can ever hand it; only the IEEE-754 rounding of accepted values
  is abstracted away.
* Fallible operations return `Except`.
-/

namespace JsonStudy

/-- Position bookkeeping shared by the whole pipeline: given the
position `(l, p)` of the most recently consumed character, `nextLP c l p`
is the stored position after additionally consuming `c`.  A newline
bumps the line and resets the column so that the following character is
reported at column 1. -/
def nextLP (c : Char) (l p : Nat) : Nat × Nat :=
  if c = '\n' then (l + 1, 0) else (l, p + 1)

/-- Modelled from the spec: the repository's `src/char_reader` module is
declared (`pub mod char_reader;` in `src/lib.rs`) but its source file is
not present under `src/`; §4.1 of the specification describes it.  The
reader decodes the input into characters, tracks the `(line, column)` of
the most recently produced character (1-based, column reset on
newline), and reports exhaustion as an `EndOfInput(line, column)`
condition carrying that position.  I/O failures of the underlying
`BufRead` source cannot occur for an in-memory character list, so the
error type here is just the end-of-input position. -/
structure CharReader where
  input : List Char
  line : Nat
  pos : Nat
deriving DecidableEq, Repr

/-- Modelled from the spec (§4.1 `read()`): pull the next character
together with the `(line, column)` at which it was read, advancing the
position state; fail with the end-of-input position when the source is
exhausted. -/
def CharReader.read : CharReader → Except (Nat × Nat) (Char × Nat × Nat × CharReader)
  | ⟨[], l, p⟩ => .error (l, p)
  | ⟨c :: rest, l, p⟩ => .ok (c, l, p + 1, ⟨rest, (nextLP c l p).1, (nextLP c l p).2⟩)

/-- Modelled from the spec (§4.1 `consume(n)`): discard exactly `n`
already-verified upcoming characters, updating the position state the
same way `read` would. -/
def CharReader.consume : CharReader → Nat → Except (Nat × Nat) CharReader
  | cr, 0 => .ok cr
  | cr, n + 1 =>
    match cr.read with
    | .error e => .error e
    | .ok (_, _, _, cr') => cr'.consume n

/-! ## Lexer data model (`src/lexer/mod.rs`, `src/lexer/error.rs`) -/

/-- `Data` from `src/lexer/mod.rs`: the payload variants of a token. -/
inductive Data where
  | string (s : String)
  | number (q : ℚ)
  | true
  | false
  | null
  | colon
  | comma
  | leftBracket
  | rightBracket
  | leftBrace
  | rightBrace
  | eof
deriving DecidableEq, Repr

/-- `Token` from `src/lexer/mod.rs`: a payload plus its line range and
position (column) range. -/
structure Token where
  line : Nat × Nat
  pos : Nat × Nat
  data : Data
deriving DecidableEq, Repr

/-- `Error` from `src/lexer/error.rs`.  String payloads that in Rust are
produced by `to_string` on an inner error keep their literal text. -/
inductive LexError where
  | eof (line pos : Nat)
  | unclosedStringLiteral (line pos : Nat × Nat)
  | readerError (s : String)
  | invalidToken (name : String) (line pos : Nat × Nat)
  | invalidNumber (msg : String) (line pos : Nat × Nat)
deriving DecidableEq, Repr

/-! ## The Rust `f64` text grammar

`Lexer::parse_number` defers validity entirely to
`str::parse::<f64>()`.  The buffer it builds only ever contains
characters from `{0-9, '-', '.', 'e', 'E'}` (see `numChar` below), so
the `inf`/`infinity`/`nan` alternatives of Rust's grammar are
unreachable and the grammar restricted to that alphabet is:
`sign? (digits ('.' digits?)? | '.' digits) ([eE] sign? digits)?`
with at least one mantissa digit and at least one exponent digit.
The value returned is the exact rational value of the literal. -/

/-- Decimal value of a digit run (most significant first). -/
def digitsToNat (l : List Char) : Nat :=
  l.foldl (fun a c => 10 * a + (c.toNat - 48)) 0

/-- The mantissa-and-exponent assembly of an accepted literal
`sign? ip '.' fp [eE] esign? ed`, as a single exact fraction:
`±(ip.fp) · 10^(±ed)`. -/
def decValue (neg : Bool) (ip fp : List Char) (eneg : Bool) (ed : List Char) : ℚ :=
  let m : ℤ := (digitsToNat ip : ℤ) * 10 ^ fp.length + (digitsToNat fp : ℤ)
  let m : ℤ := if neg then -m else m
  let e : ℕ := digitsToNat ed
  if eneg then mkRat m (10 ^ (fp.length + e)) else mkRat (m * 10 ^ e) (10 ^ fp.length)

/-- Strip one optional leading sign, reporting whether it was `-`. -/
def stripSign (s : List Char) : Bool × List Char :=
  match s with
  | [] => (Bool.false, [])
  | c :: t =>
    if c = '-' then (Bool.true, t)
    else if c = '+' then (Bool.false, t)
    else (Bool.false, c :: t)

/-- Exponent-part step of the grammar: called with the text remaining
after the mantissa; `none` on rejection. -/
def parseExpPart (neg : Bool) (ip fp : List Char) : List Char → Option ℚ
  | [] => some (decValue neg ip fp Bool.false [])
  | c :: rest =>
    if c = 'e' ∨ c = 'E' then
      let es := stripSign rest
      let ed := es.2.takeWhile Char.isDigit
      let r2 := es.2.dropWhile Char.isDigit
      if ed = [] ∨ ¬r2 = [] then none
      else some (decValue neg ip fp es.1 ed)
    else none

/-- Acceptance and exact value of Rust's `str::parse::<f64>` on the
character set reachable from `Lexer::parse_number`. -/
def parseF64 (s : List Char) : Option ℚ :=
  let ns := stripSign s
  let ip := ns.2.takeWhile Char.isDigit
  let r1 := ns.2.dropWhile Char.isDigit
  match r1 with
  | '.' :: t =>
    let fp := t.takeWhile Char.isDigit
    let r2 := t.dropWhile Char.isDigit
    if ip = [] ∧ fp = [] then none else parseExpPart ns.1 ip fp r2
  | r1 =>
    if ip = [] then none else parseExpPart ns.1 ip [] r1

/-! ## Lexer (`src/lexer/mod.rs`) -/

/-- The character class `'-' | '1'..='9' | '0' | '.' | 'e' | 'E'`
accepted by the accumulation loop of `Lexer::parse_number`. -/
def numChar (c : Char) : Bool :=
  c.isDigit || c = '-' || c = '.' || c = 'e' || c = 'E'

/-- The string-literal loop of `Lexer::parse_string` after the opening
quote has been consumed at `(il, ip)`: accumulate characters until an
unescaped closing quote; a backslash is discarded and the following
character appended verbatim; end of input yields
`UnclosedStringLiteral` spanning from the opening quote to the point of
exhaustion. -/
def parseStringLoop (il ip : Nat) : List Char → Nat → Nat → List Char →
    Except LexError (Token × CharReader)
  | [], l, p, _ => .error (.unclosedStringLiteral (il, l) (ip, p))
  | c :: rest, l, p, buf =>
    if c = '"' then
      .ok (⟨(il, l), (ip, p + 1), .string (String.mk buf)⟩, ⟨rest, l, p + 1⟩)
    else if c = '\\' then
      match rest with
      | [] => .error (.unclosedStringLiteral (il, l) (ip, p + 1))
      | c2 :: rest2 =>
        parseStringLoop il ip rest2 (nextLP c2 l (p + 1)).1 (nextLP c2 l (p + 1)).2
          (buf ++ [c2])
    else
      parseStringLoop il ip rest (nextLP c l p).1 (nextLP c l p).2 (buf ++ [c])

/-- `Lexer::parse_string`: consume the opening quote, then run the
accumulation loop. -/
def parseString (cr : CharReader) : Except LexError (Token × CharReader) :=
  match cr.read with
  | .error (l, p) => .error (.eof l p)
  | .ok (_, il, ip, cr') => parseStringLoop il ip cr'.input cr'.line cr'.pos []

/-- Finishing step of `Lexer::parse_number`: parse the accumulated text
as a float, mapping failure to `InvalidNumber` with the full range. -/
def numFinish (il ip fl fp : Nat) (buf : List Char) (cr : CharReader) :
    Except LexError (Token × CharReader) :=
  match parseF64 buf with
  | none => .error (.invalidNumber "invalid float literal" (il, fl) (ip, fp))
  | some q => .ok (⟨(il, fl), (ip, fp), .number q⟩, cr)

/-- The accumulation loop of `Lexer::parse_number`: greedily consume
characters of `numChar`, pushing back the first character outside the
set (which leaves the reader state untouched here), or stop at end of
input. -/
def parseNumberLoop (il ip : Nat) : List Char → Nat → Nat → List Char → Nat → Nat →
    Except LexError (Token × CharReader)
  | [], l, p, buf, fl, fp => numFinish il ip fl fp buf ⟨[], l, p⟩
  | c :: rest, l, p, buf, fl, fp =>
    if numChar c then
      parseNumberLoop il ip rest (nextLP c l p).1 (nextLP c l p).2
        (buf ++ [c]) l (p + 1)
    else
      numFinish il ip fl fp buf ⟨c :: rest, l, p⟩

/-- `Lexer::parse_number`: read the first (sign or digit) character,
then run the accumulation loop. -/
def parseNumber (cr : CharReader) : Except LexError (Token × CharReader) :=
  match cr.read with
  | .error (l, p) => .error (.eof l p)
  | .ok (c, il, ip, cr') => parseNumberLoop il ip cr'.input cr'.line cr'.pos [c] il ip

/-- The verification loop of `Lexer::parse_static`: peek the remaining
expected characters one at a time (advancing the peek position without
consuming), reporting the first mismatch as `InvalidToken` and
exhaustion as the end-of-input condition at the last produced
position. -/
def staticCheck (il ip : Nat) (name : String) :
    List Char → List Char → Nat → Nat → Option LexError
  | _, [], _, _ => none
  | [], _ :: _, l, p => some (.eof l p)
  | c :: rest, e :: es, l, p =>
    if e = c then staticCheck il ip name rest es (nextLP c l p).1 (nextLP c l p).2
    else some (.invalidToken name (il, l) (ip, p + 1))

/-- `Lexer::parse_static::<K>`: consume the first keyword character,
verify the remainder by peeking, then bulk-`consume` the verified
characters.  The token's line range is `initial..initial` and its
position range spans the whole keyword. -/
def parseStatic (source : List Char) (data : Data) (name : String)
    (cr : CharReader) : Except LexError (Token × CharReader) :=
  match cr.read with
  | .error (l, p) => .error (.eof l p)
  | .ok (_, il, ip, cr') =>
    match staticCheck il ip name cr'.input source cr'.line cr'.pos with
    | some e => .error e
    | none =>
      match cr'.consume source.length with
      | .error _ => .error (.readerError "consume")
      | .ok cr'' =>
        .ok (⟨(il, il), (ip, ip + source.length), data⟩, cr'')

/-- `Lexer::parse_delimiter::<C>`: one-character structural token whose
start and end positions coincide. -/
def parseDelimiter (data : Data) (cr : CharReader) :
    Except LexError (Token × CharReader) :=
  match cr.read with
  | .error (l, p) => .error (.eof l p)
  | .ok (_, l, p, cr') => .ok (⟨(l, l), (p, p), data⟩, cr')

/-- Characters on which `Lexer::read` dispatches to a token parser;
every other character is discarded silently and the read retried. -/
def tokenStart (c : Char) : Bool :=
  c = '"' || c = '-' || c.isDigit || c = 't' || c = 'f' || c = 'n' ||
    c = ':' || c = ',' || c = '{' || c = '}' || c = '[' || c = ']'

/-- `Lexer::read`: peek the next character and dispatch.  End of input
while peeking — and an `EOF` error escaping a token parser (which
happens when `parse_static` runs out of input while verifying a
keyword) — is converted into the `EOF` token at the reported
position. -/
def lexReadGo : List Char → Nat → Nat → Except LexError (Token × CharReader)
  | [], l, p => .ok (⟨(l, l), (p, p), .eof⟩, ⟨[], l, p⟩)
  | c :: rest, l, p =>
    let cr : CharReader := ⟨c :: rest, l, p⟩
    let skip : CharReader := ⟨rest, (nextLP c l p).1, (nextLP c l p).2⟩
    if c = '"' then parseString cr
    else if c = '-' ∨ c.isDigit then parseNumber cr
    else if c = 't' then
      match parseStatic ['r', 'u', 'e'] .true "true" cr with
      | .error (.eof l' p') => .ok (⟨(l', l'), (p', p'), .eof⟩, skip)
      | r => r
    else if c = 'f' then
      match parseStatic ['a', 'l', 's', 'e'] .false "false" cr with
      | .error (.eof l' p') => .ok (⟨(l', l'), (p', p'), .eof⟩, skip)
      | r => r
    else if c = 'n' then
      match parseStatic ['u', 'l', 'l'] .null "null" cr with
      | .error (.eof l' p') => .ok (⟨(l', l'), (p', p'), .eof⟩, skip)
      | r => r
    else if c = ':' then parseDelimiter .colon cr
    else if c = ',' then parseDelimiter .comma cr
    else if c = '{' then parseDelimiter .leftBrace cr
    else if c = '}' then parseDelimiter .rightBrace cr
    else if c = '[' then parseDelimiter .leftBracket cr
    else if c = ']' then parseDelimiter .rightBracket cr
    else lexReadGo rest (nextLP c l p).1 (nextLP c l p).2

/-- `Lexer::read` as a function of the reader state. -/
def lexRead (cr : CharReader) : Except LexError (Token × CharReader) :=
  lexReadGo cr.input cr.line cr.pos

/-! ## Parser (`src/lib.rs`) -/

/-- `Node` from `src/lib.rs`.  `std::collections::BTreeMap<String, Node>`
is modelled as its iteration view: an association list whose keys are
strictly increasing in the `String` order (Rust's byte-wise order on
UTF-8 agrees with the scalar-value order Lean's `String` comparison
uses). -/
inductive Node where
  | string (s : String)
  | number (q : ℚ)
  | true
  | false
  | null
  | array (elems : List Node)
  | object (entries : List (String × Node))
  | eof

/-- The six distinct syntax-error messages of `src/lib.rs`, as an
enumeration (the Rust code stores the literal Japanese text; each
constructor here stands for exactly one of those message strings). -/
inductive SyntaxMsg where
  /-- "bool型・null型・String型・Number型・Object・Arrayのいずれかでなければなりません" -/
  | valueKind
  /-- "Objectの解析の継続、終了のいずれもでありません" (continue-or-close) -/
  | objectSep
  /-- "Objectの値はbool型・null型・String型・Number型・Object・Arrayのいずれかでなければなりません" -/
  | objectValueKind
  /-- "Objectのキーの後は`:`でなければなりません" -/
  | objectColon
  /-- "ObjectのキーはString型でなければなりません" -/
  | objectKeyString
  /-- "Arrayの要素はbool型・null型・String型・Number型・Object・Arrayのいずれかでなければなりません" -/
  | arrayValueKind
  /-- "Arrayの要素の後は `,` か `]` でなければなりません" -/
  | arraySep
deriving DecidableEq, Repr

/-- `Error` from `src/lib.rs`.  `LexerError` keeps the structured lexer
error (the Rust code stores its rendered string). -/
inductive PError where
  | syntaxError (line pos : Nat × Nat) (msg : SyntaxMsg)
  | lexerError (e : LexError)
deriving DecidableEq, Repr

/-- `Parser` state from `src/lib.rs`: the lexer (hence reader) state and
the line/position ranges of the most recently read token, used by
`syntax_error`. -/
structure PState where
  cr : CharReader
  line : Nat × Nat
  pos : Nat × Nat
deriving DecidableEq, Repr

/-- `Parser::new`: fresh reader positions and the `1..1` ranges. -/
def mkParser (s : List Char) : PState :=
  ⟨⟨s, 1, 0⟩, (1, 1), (1, 1)⟩

/-- `Parser::read_token`: pull one token from the lexer, recording its
line/position ranges in the parser state. -/
def readToken (st : PState) : Except PError (Token × PState) :=
  match lexRead st.cr with
  | .error e => .error (.lexerError e)
  | .ok (t, cr') => .ok (t, ⟨cr', t.line, t.pos⟩)

/-- The `BTreeMap` entry update used by `Parser::parse_object`
(`Entry::Occupied` overwrites, `Entry::Vacant` inserts), expressed on
the sorted association-list model. -/
def objInsert (k : String) (v : Node) : List (String × Node) → List (String × Node)
  | [] => [(k, v)]
  | (k', v') :: rest =>
    if k < k' then (k, v) :: (k', v') :: rest
    else if k = k' then (k, v) :: rest
    else (k', v') :: objInsert k v rest

/-- The value-kind acceptance check shared by `Parser::parse_object` and
`Parser::parse_array`: a parsed node is a legal element value unless it
is the `EOF` sentinel. -/
def isValueNode : Node → Bool
  | .eof => Bool.false
  | _ => Bool.true

/-- The marker returned when the fuel of the fueled parser runs out.
`parseF` is only ever used with fuel exceeding the remaining input
length, where this case is unreachable (`parseF_mono` below). -/
def fuelError : Except PError (Node × PState) :=
  .error (.lexerError (.readerError "fuel"))

mutual

/-- `Parser::parse`, fueled: read one token and dispatch on its payload.
Scalar tokens wrap directly into nodes, `EOF` becomes the sentinel node,
braces/brackets enter the object/array grammars, and any other token in
value position is the generic value-kind syntax error at the parser's
current ranges. -/
def parseF : Nat → PState → Except PError (Node × PState)
  | 0, _ => fuelError
  | fuel + 1, st =>
    match readToken st with
    | .error e => .error e
    | .ok (t, st') =>
      match t.data with
      | .leftBrace => parseObjectF fuel st' []
      | .leftBracket => parseArrayF fuel st' []
      | .string s => .ok (.string s, st')
      | .number q => .ok (.number q, st')
      | .true => .ok (.true, st')
      | .false => .ok (.false, st')
      | .null => .ok (.null, st')
      | .eof => .ok (.eof, st')
      | _ => .error (.syntaxError st'.line st'.pos .valueKind)

/-- The loop of `Parser::parse_object` (entered after `{`): key must be
a string, then `:`, then a recursively parsed value that must be a legal
value kind; the entry is inserted with overwrite; then `,` continues and
`}` finishes. -/
def parseObjectF : Nat → PState → List (String × Node) →
    Except PError (Node × PState)
  | 0, _, _ => fuelError
  | fuel + 1, st, acc =>
    match readToken st with
    | .error e => .error e
    | .ok (kt, st1) =>
      match kt.data with
      | .string key =>
        match readToken st1 with
        | .error e => .error e
        | .ok (ct, st2) =>
          match ct.data with
          | .colon =>
            match parseF fuel st2 with
            | .error e => .error e
            | .ok (v, st3) =>
              if isValueNode v then
                let acc' := objInsert key v acc
                match readToken st3 with
                | .error e => .error e
                | .ok (sep, st4) =>
                  match sep.data with
                  | .comma => parseObjectF fuel st4 acc'
                  | .rightBrace => .ok (.object acc', st4)
                  | _ => .error (.syntaxError st4.line st4.pos .objectSep)
              else .error (.syntaxError st3.line st3.pos .objectValueKind)
          | _ => .error (.syntaxError st2.line st2.pos .objectColon)
      | _ => .error (.syntaxError st1.line st1.pos .objectKeyString)

/-- The loop of `Parser::parse_array` (entered after `[`): recursively
parse a value that must be a legal value kind, append it, then `,`
continues and `]` finishes. -/
def parseArrayF : Nat → PState → List Node → Except PError (Node × PState)
  | 0, _, _ => fuelError
  | fuel + 1, st, acc =>
    match parseF fuel st with
    | .error e => .error e
    | .ok (v, st1) =>
      if isValueNode v then
        match readToken st1 with
        | .error e => .error e
        | .ok (sep, st2) =>
          match sep.data with
          | .comma => parseArrayF fuel st2 (acc ++ [v])
          | .rightBracket => .ok (.array (acc ++ [v]), st2)
          | _ => .error (.syntaxError st2.line st2.pos .arraySep)
      else .error (.syntaxError st1.line st1.pos .arrayValueKind)

end

/-- `Parser::parse`: the fueled parser at a canonical, always
sufficient fuel (each unit of fuel is spent either on consuming at
least one input character or on one non-consuming hand-off from the
array loop into `parse`, so `2·|input| + 3` never runs out;
`parseF_mono` below makes the choice of fuel irrelevant). -/
def Parser.parse (st : PState) : Except PError (Node × PState) :=
  parseF (2 * st.cr.input.length + 3) st

/-! ## Auxiliary notions used by the statements -/

/-- Position advance over a list of consumed characters. -/
def stLP (cs : List Char) (lp : Nat × Nat) : Nat × Nat :=
  cs.foldl (fun a c => nextLP c a.1 a.2) lp

/-- JSON whitespace characters. -/
def wsChar (c : Char) : Bool :=
  c = ' ' || c = '\t' || c = '\n' || c = '\r'

/-- A string body in which no unescaped closing quote ever occurs (a
backslash always protects the following character), so that lexing from
the opening quote runs to the end of input. -/
def noClose : List Char → Bool
  | [] => Bool.true
  | c :: rest =>
    if c = '"' then Bool.false
    else if c = '\\' then
      match rest with
      | [] => Bool.true
      | _ :: rest2 => noClose rest2
    else noClose rest

/-- A complete string body (the characters strictly between the two
delimiting quotes): no unescaped quote, and no dangling final
backslash. -/
def bodyOk : List Char → Bool
  | [] => Bool.true
  | c :: rest =>
    if c = '"' then Bool.false
    else if c = '\\' then
      match rest with
      | [] => Bool.false
      | _ :: rest2 => bodyOk rest2
    else bodyOk rest

/-- The text the string loop accumulates from a body: each backslash is
dropped and the character after it kept verbatim. -/
def stripEsc : List Char → List Char
  | [] => []
  | c :: rest =>
    if c = '\\' then
      match rest with
      | [] => []
      | c2 :: rest2 => c2 :: stripEsc rest2
    else c :: stripEsc rest

/-- Strictly increasing keys (the `BTreeMap` iteration-order
invariant). -/
def keysSorted : List (String × Node) → Bool
  | [] => Bool.true
  | [_] => Bool.true
  | (k, _) :: (k', v') :: rest => decide (k < k') && keysSorted ((k', v') :: rest)

/-- Every `object` node anywhere in the tree has strictly increasing
keys. -/
inductive Sorted : Node → Prop where
  | string (s : String) : Sorted (.string s)
  | number (q : ℚ) : Sorted (.number q)
  | true : Sorted .true
  | false : Sorted .false
  | null : Sorted .null
  | eof : Sorted .eof
  | array {elems : List Node} : (∀ x ∈ elems, Sorted x) → Sorted (.array elems)
  | object {entries : List (String × Node)} : keysSorted entries = Bool.true →
      (∀ kv ∈ entries, Sorted kv.2) → Sorted (.object entries)

/-! ## A serializer for round-trip statements

`serNode` prints a tree back to characters.  Every character of a
string is printed escaped (`\c`), which the lexer reads back verbatim,
so arbitrary string contents (including quotes, backslashes, newlines
and multi-byte text) round-trip.  Numbers are printed as exact
scientific literals `n e- k`, which round-trips every value a JSON
decimal literal (integer, fractional or exponent form) can denote:
exactly the rationals whose denominator divides a power of ten. -/

/-- Decimal digits of a natural number, most significant first
(`natDigits 0 = ['0']`). -/
def natDigits (n : Nat) : List Char :=
  if n = 0 then ['0']
  else ((Nat.digits 10 n).map (fun d => Char.ofNat (48 + d))).reverse

/-- Print an integer. -/
def serInt (z : Int) : List Char :=
  if z < 0 then '-' :: natDigits z.natAbs else natDigits z.natAbs

/-- Print a string literal, escaping every character. -/
def serString (s : String) : List Char :=
  '"' :: (s.data.flatMap (fun c => ['\\', c])) ++ ['"']

/-- Print a number as an exact scientific literal `n e- k`: the
mantissa is `q.num · 10^k / q.den` at the (generous) exponent
`k = q.den`.  Whenever `q.den` divides `10 ^ q.den` — which holds for
every rational a JSON decimal literal can denote, `3.14159` and
`1.23e4` included — the printed literal parses back to exactly `q`. -/
def serNum (q : ℚ) : List Char :=
  serInt (q.num * ((10 ^ q.den / q.den : ℕ) : ℤ)) ++
    'e' :: '-' :: natDigits q.den

mutual

/-- Print a tree back to characters. -/
def serNode : Node → List Char
  | .string s => serString s
  | .number q => serNum q
  | .true => ['t', 'r', 'u', 'e']
  | .false => ['f', 'a', 'l', 's', 'e']
  | .null => ['n', 'u', 'l', 'l']
  | .array elems => '[' :: serElems elems ++ [']']
  | .object entries => '{' :: serEntries entries ++ ['}']
  | .eof => []

/-- Elements of an array, comma separated. -/
def serElems : List Node → List Char
  | [] => []
  | x :: xs => serNode x ++ serTailElems xs

/-- Trailing elements, each preceded by a comma. -/
def serTailElems : List Node → List Char
  | [] => []
  | x :: xs => ',' :: serNode x ++ serTailElems xs

/-- Entries of an object, comma separated. -/
def serEntries : List (String × Node) → List Char
  | [] => []
  | (k, v) :: xs => serString k ++ ':' :: serNode v ++ serTailEntries xs

/-- Trailing entries, each preceded by a comma. -/
def serTailEntries : List (String × Node) → List Char
  | [] => []
  | (k, v) :: xs => ',' :: serString k ++ ':' :: serNode v ++ serTailEntries xs

end

/-- The trees whose serializations the grammar accepts back unchanged:
no `EOF` sentinel inside; numbers denotable by a decimal literal
(integer, fractional or exponent form — the denominator divides a power
of ten, with `q.den ∣ 10 ^ q.den` as the self-contained form of that
condition); and — because the parser rejects empty `{}`/`[]` — nonempty
containers; object keys strictly increasing (the invariant every parsed
tree satisfies). -/
inductive WF : Node → Prop where
  | string (s : String) : WF (.string s)
  | number {q : ℚ} : q.den ∣ 10 ^ q.den → WF (.number q)
  | true : WF .true
  | false : WF .false
  | null : WF .null
  | array {elems : List Node} : elems ≠ [] → (∀ x ∈ elems, WF x) →
      WF (.array elems)
  | object {entries : List (String × Node)} : entries ≠ [] →
      keysSorted entries = Bool.true → (∀ kv ∈ entries, WF kv.2) →
      WF (.object entries)

/-! ## The token-data stream

`tokStreamF` runs the lexer to exhaustion and records the
position-independent content of the answer: the `Data` payloads of the
tokens before the end-of-input token, and, if the lexer fails, the
failure with its positions erased. -/

/-- A lexer error with the positions erased. -/
inductive LexErrorKind where
  | eof
  | unclosedStringLiteral
  | readerError (s : String)
  | invalidToken (name : String)
  | invalidNumber (msg : String)
deriving DecidableEq, Repr

/-- Erase the positions of a lexer error. -/
def LexError.kind : LexError → LexErrorKind
  | .eof _ _ => .eof
  | .unclosedStringLiteral _ _ => .unclosedStringLiteral
  | .readerError s => .readerError s
  | .invalidToken n _ _ => .invalidToken n
  | .invalidNumber m _ _ => .invalidNumber m

/-- Fueled tokenization: the `Data` payloads until the end-of-input
token, plus the erased lexer error if one occurs. -/
def tokStreamF : Nat → CharReader → List Data × Option LexErrorKind
  | 0, _ => ([], none)
  | fuel + 1, cr =>
    match lexRead cr with
    | .error e => ([], some e.kind)
    | .ok (t, cr') =>
      if t.data = .eof then ([], none)
      else
        let s := tokStreamF fuel cr'
        (t.data :: s.1, s.2)

/-- The token-data stream of a reader state, at canonical fuel. -/
def tokStream (cr : CharReader) : List Data × Option LexErrorKind :=
  tokStreamF (cr.input.length + 1) cr

/-- The tree a parse of the given characters produces, positions and
errors erased (`none` on any failure). -/
def treeResult (s : List Char) : Option Node :=
  (Parser.parse (mkParser s)).toOption.map Prod.fst

/-! ## Position bookkeeping lemmas -/

theorem stLP_nil (lp : Nat × Nat) : stLP [] lp = lp := rfl

theorem stLP_cons (c : Char) (cs : List Char) (lp : Nat × Nat) :
    stLP (c :: cs) lp = stLP cs (nextLP c lp.1 lp.2) := rfl

theorem stLP_append (a b : List Char) (lp : Nat × Nat) :
    stLP (a ++ b) lp = stLP b (stLP a lp) := by
  simp [stLP, List.foldl_append]

theorem nextLP_not_newline {c : Char} (h : ¬c = '\n') (l p : Nat) :
    nextLP c l p = (l, p + 1) := by
  simp [nextLP, h]

/-- Over newline-free characters the line is unchanged and the column
advances by the length. -/
theorem stLP_no_newline : ∀ (cs : List Char), (∀ c ∈ cs, ¬c = '\n') →
    ∀ l p, stLP cs (l, p) = (l, p + cs.length)
  | [], _, l, p => by simp [stLP_nil]
  | c :: cs, h, l, p => by
    rw [stLP_cons, nextLP_not_newline (h c (by simp))]
    rw [stLP_no_newline cs (fun x hx => h x (by simp [hx])) l (p + 1)]
    simp
    omega

/-! ## Single-token lexer lemmas -/

theorem lexRead_eq (cr : CharReader) :
    lexRead cr = lexReadGo cr.input cr.line cr.pos := rfl

theorem lexReadGo_nil (l p : Nat) :
    lexReadGo [] l p = .ok (⟨(l, l), (p, p), .eof⟩, ⟨[], l, p⟩) := rfl

theorem lexReadGo_colon (rest : List Char) (l p : Nat) :
    lexReadGo (':' :: rest) l p =
      .ok (⟨(l, l), (p + 1, p + 1), .colon⟩, ⟨rest, l, p + 1⟩) := by
  simp [lexReadGo, parseDelimiter, CharReader.read, nextLP]

theorem lexReadGo_comma (rest : List Char) (l p : Nat) :
    lexReadGo (',' :: rest) l p =
      .ok (⟨(l, l), (p + 1, p + 1), .comma⟩, ⟨rest, l, p + 1⟩) := by
  simp [lexReadGo, parseDelimiter, CharReader.read, nextLP]

theorem lexReadGo_leftBrace (rest : List Char) (l p : Nat) :
    lexReadGo ('{' :: rest) l p =
      .ok (⟨(l, l), (p + 1, p + 1), .leftBrace⟩, ⟨rest, l, p + 1⟩) := by
  simp [lexReadGo, parseDelimiter, CharReader.read, nextLP]

theorem lexReadGo_rightBrace (rest : List Char) (l p : Nat) :
    lexReadGo ('}' :: rest) l p =
      .ok (⟨(l, l), (p + 1, p + 1), .rightBrace⟩, ⟨rest, l, p + 1⟩) := by
  simp [lexReadGo, parseDelimiter, CharReader.read, nextLP]

theorem lexReadGo_leftBracket (rest : List Char) (l p : Nat) :
    lexReadGo ('[' :: rest) l p =
      .ok (⟨(l, l), (p + 1, p + 1), .leftBracket⟩, ⟨rest, l, p + 1⟩) := by
  simp [lexReadGo, parseDelimiter, CharReader.read, nextLP]

theorem lexReadGo_rightBracket (rest : List Char) (l p : Nat) :
    lexReadGo (']' :: rest) l p =
      .ok (⟨(l, l), (p + 1, p + 1), .rightBracket⟩, ⟨rest, l, p + 1⟩) := by
  simp [lexReadGo, parseDelimiter, CharReader.read, nextLP]

theorem lexReadGo_true (rest : List Char) (l p : Nat) :
    lexReadGo ('t' :: 'r' :: 'u' :: 'e' :: rest) l p =
      .ok (⟨(l, l), (p + 1, p + 4), .true⟩, ⟨rest, l, p + 4⟩) := by
  simp_arith [lexReadGo, parseStatic, staticCheck, CharReader.read,
    CharReader.consume, nextLP]

theorem lexReadGo_false (rest : List Char) (l p : Nat) :
    lexReadGo ('f' :: 'a' :: 'l' :: 's' :: 'e' :: rest) l p =
      .ok (⟨(l, l), (p + 1, p + 5), .false⟩, ⟨rest, l, p + 5⟩) := by
  simp_arith [lexReadGo, parseStatic, staticCheck, CharReader.read,
    CharReader.consume, nextLP]

theorem lexReadGo_null (rest : List Char) (l p : Nat) :
    lexReadGo ('n' :: 'u' :: 'l' :: 'l' :: rest) l p =
      .ok (⟨(l, l), (p + 1, p + 4), .null⟩, ⟨rest, l, p + 4⟩) := by
  simp_arith [lexReadGo, parseStatic, staticCheck, CharReader.read,
    CharReader.consume, nextLP]

/-- A character on which no token parser is dispatched is discarded and
the read retried. -/
theorem lexReadGo_skip {c : Char} (h : tokenStart c = false) (rest : List Char)
    (l p : Nat) :
    lexReadGo (c :: rest) l p = lexReadGo rest (nextLP c l p).1 (nextLP c l p).2 := by
  simp only [tokenStart, Bool.or_eq_false_iff, decide_eq_false_iff_not] at h
  obtain ⟨⟨⟨⟨⟨⟨⟨⟨⟨⟨⟨h1, h2⟩, h3⟩, h4⟩, h5⟩, h6⟩, h7⟩, h8⟩, h9⟩, h10⟩, h11⟩, h12⟩ := h
  simp [lexReadGo, h1, h2, h3, h4, h5, h6, h7, h8, h9, h10, h11, h12]

theorem wsChar_not_tokenStart {c : Char} (h : wsChar c = Bool.true) :
    tokenStart c = false := by
  have h' : c = ' ' ∨ c = '\t' ∨ c = '\n' ∨ c = '\r' := by
    simpa [wsChar, or_assoc] using h
  rcases h' with rfl | rfl | rfl | rfl <;> decide

/-- Reading over a run of non-token-start characters reaches end of
input and yields the `EOF` token at the advanced position. -/
theorem lexReadGo_allSkip : ∀ (s : List Char), (∀ c ∈ s, tokenStart c = false) →
    ∀ l p, lexReadGo s l p =
      .ok (⟨((stLP s (l, p)).1, (stLP s (l, p)).1),
            ((stLP s (l, p)).2, (stLP s (l, p)).2), .eof⟩,
          ⟨[], (stLP s (l, p)).1, (stLP s (l, p)).2⟩)
  | [], _, l, p => by simp [lexReadGo_nil, stLP_nil]
  | c :: s, h, l, p => by
    rw [lexReadGo_skip (h c (by simp)), stLP_cons,
      lexReadGo_allSkip s (fun x hx => h x (by simp [hx]))]

/-! ## String-literal lemmas -/

theorem lexReadGo_stringEnter (s : List Char) (l p : Nat) :
    lexReadGo ('"' :: s) l p = parseStringLoop l (p + 1) s l (p + 1) [] := by
  simp [lexReadGo, parseString, CharReader.read, nextLP]

theorem bodyOk_cons (c : Char) (rest : List Char) :
    bodyOk (c :: rest) =
      if c = '"' then Bool.false
      else if c = '\\' then
        (match rest with
         | [] => Bool.false
         | _ :: rest2 => bodyOk rest2)
      else bodyOk rest := by cases rest <;> rfl

theorem noClose_cons (c : Char) (rest : List Char) :
    noClose (c :: rest) =
      if c = '"' then Bool.false
      else if c = '\\' then
        (match rest with
         | [] => Bool.true
         | _ :: rest2 => noClose rest2)
      else noClose rest := by cases rest <;> rfl

theorem stripEsc_cons (c : Char) (rest : List Char) :
    stripEsc (c :: rest) =
      if c = '\\' then
        (match rest with
         | [] => []
         | c2 :: rest2 => c2 :: stripEsc rest2)
      else c :: stripEsc rest := by cases rest <;> rfl

theorem parseStringLoop_cons (il ip : Nat) (c : Char) (rest : List Char)
    (l p : Nat) (buf : List Char) :
    parseStringLoop il ip (c :: rest) l p buf =
      if c = '"' then
        .ok (⟨(il, l), (ip, p + 1), .string (String.mk buf)⟩, ⟨rest, l, p + 1⟩)
      else if c = '\\' then
        (match rest with
         | [] => .error (.unclosedStringLiteral (il, l) (ip, p + 1))
         | c2 :: rest2 =>
           parseStringLoop il ip rest2 (nextLP c2 l (p + 1)).1 (nextLP c2 l (p + 1)).2
             (buf ++ [c2]))
      else
        parseStringLoop il ip rest (nextLP c l p).1 (nextLP c l p).2 (buf ++ [c]) := by
  cases rest <;> rfl

theorem bodyOk_quote (rest : List Char) : bodyOk ('"' :: rest) = Bool.false := by
  cases rest <;> rfl

theorem bodyOk_escape (c2 : Char) (rest2 : List Char) :
    bodyOk ('\\' :: c2 :: rest2) = bodyOk rest2 := rfl

theorem noClose_quote (rest : List Char) : noClose ('"' :: rest) = Bool.false := by
  cases rest <;> rfl

theorem noClose_escape (c2 : Char) (rest2 : List Char) :
    noClose ('\\' :: c2 :: rest2) = noClose rest2 := rfl

theorem stripEsc_escape (c2 : Char) (rest2 : List Char) :
    stripEsc ('\\' :: c2 :: rest2) = c2 :: stripEsc rest2 := rfl

theorem parseStringLoop_quote (il ip : Nat) (rest : List Char) (l p : Nat)
    (buf : List Char) :
    parseStringLoop il ip ('"' :: rest) l p buf =
      .ok (⟨(il, l), (ip, p + 1), .string (String.mk buf)⟩, ⟨rest, l, p + 1⟩) := by
  cases rest <;> rfl

theorem parseStringLoop_escape (il ip : Nat) (c2 : Char) (rest2 : List Char)
    (l p : Nat) (buf : List Char) :
    parseStringLoop il ip ('\\' :: c2 :: rest2) l p buf =
      parseStringLoop il ip rest2 (nextLP c2 l (p + 1)).1 (nextLP c2 l (p + 1)).2
        (buf ++ [c2]) := rfl

theorem parseStringLoop_escEnd (il ip l p : Nat) (buf : List Char) :
    parseStringLoop il ip ['\\'] l p buf =
      .error (.unclosedStringLiteral (il, l) (ip, p + 1)) := rfl

theorem parseStringLoop_other {c : Char} (hq : ¬c = '"') (hb : ¬c = '\\')
    (il ip : Nat) (rest : List Char) (l p : Nat) (buf : List Char) :
    parseStringLoop il ip (c :: rest) l p buf =
      parseStringLoop il ip rest (nextLP c l p).1 (nextLP c l p).2 (buf ++ [c]) := by
  rw [parseStringLoop_cons, if_neg hq, if_neg hb]

theorem bodyOk_other {c : Char} (hq : ¬c = '"') (hb : ¬c = '\\')
    (rest : List Char) : bodyOk (c :: rest) = bodyOk rest := by
  rw [bodyOk_cons, if_neg hq, if_neg hb]

theorem noClose_other {c : Char} (hq : ¬c = '"') (hb : ¬c = '\\')
    (rest : List Char) : noClose (c :: rest) = noClose rest := by
  rw [noClose_cons, if_neg hq, if_neg hb]

theorem stripEsc_other {c : Char} (hb : ¬c = '\\') (rest : List Char) :
    stripEsc (c :: rest) = c :: stripEsc rest := by
  rw [stripEsc_cons, if_neg hb]

/-- The string loop on a well-formed body followed by the closing
quote: it stops at that quote and the token text is the body with each
backslash dropped and the following character kept verbatim. -/
theorem parseStringLoop_closed : ∀ (raw : List Char), bodyOk raw = Bool.true →
    ∀ (rest : List Char) (l p il ip : Nat) (buf : List Char),
    parseStringLoop il ip (raw ++ '"' :: rest) l p buf =
      .ok (⟨(il, (stLP raw (l, p)).1), (ip, (stLP raw (l, p)).2 + 1),
            .string (String.mk (buf ++ stripEsc raw))⟩,
           ⟨rest, (stLP raw (l, p)).1, (stLP raw (l, p)).2 + 1⟩) := by
  intro raw
  induction raw using bodyOk.induct with
  | case1 =>
    intro _ rest l p il ip buf
    rw [List.nil_append, parseStringLoop_quote]
    simp [stripEsc, stLP_nil]
  | case2 rest' =>
    intro h
    rw [bodyOk_quote] at h
    exact absurd h (by simp)
  | case3 =>
    intro h
    exact absurd h (by decide)
  | case4 c2 raw' hbq ih =>
    intro h rest l p il ip buf
    have h' : bodyOk raw' = Bool.true := by rw [bodyOk_escape] at h; exact h
    rw [stLP_cons, nextLP_not_newline (by decide : ¬('\\' : Char) = '\n'), stLP_cons]
    rw [List.cons_append, List.cons_append, parseStringLoop_escape]
    rw [ih h' rest _ _ il ip (buf ++ [c2])]
    rw [stripEsc_escape]
    simp
  | case5 c raw' hq hb ih =>
    intro h rest l p il ip buf
    have h' : bodyOk raw' = Bool.true := by rw [bodyOk_other hq hb] at h; exact h
    rw [stLP_cons]
    rw [List.cons_append, parseStringLoop_other hq hb]
    rw [ih h' rest _ _ il ip (buf ++ [c])]
    rw [stripEsc_other hb]
    simp

/-- The string loop on a body with no unescaped closing quote before
end of input: the unclosed-string error spans from the opening quote to
the exhaustion point. -/
theorem parseStringLoop_unclosed : ∀ (s : List Char), noClose s = Bool.true →
    ∀ (l p il ip : Nat) (buf : List Char),
    parseStringLoop il ip s l p buf =
      .error (.unclosedStringLiteral (il, (stLP s (l, p)).1) (ip, (stLP s (l, p)).2)) := by
  intro s
  induction s using noClose.induct with
  | case1 =>
    intro _ l p il ip buf
    simp [parseStringLoop, stLP_nil]
  | case2 rest' =>
    intro h
    rw [noClose_quote] at h
    exact absurd h (by simp)
  | case3 =>
    intro _ l p il ip buf
    rw [stLP_cons, nextLP_not_newline (by decide : ¬('\\' : Char) = '\n'), stLP_nil]
    rw [parseStringLoop_escEnd]
  | case4 c2 s' hbq ih =>
    intro h l p il ip buf
    have h' : noClose s' = Bool.true := by rw [noClose_escape] at h; exact h
    rw [stLP_cons, nextLP_not_newline (by decide : ¬('\\' : Char) = '\n'), stLP_cons]
    rw [parseStringLoop_escape]
    exact ih h' _ _ il ip (buf ++ [c2])
  | case5 c s' hq hb ih =>
    intro h l p il ip buf
    have h' : noClose s' = Bool.true := by rw [noClose_other hq hb] at h; exact h
    rw [stLP_cons]
    rw [parseStringLoop_other hq hb]
    exact ih h' _ _ il ip (buf ++ [c])

/-! ## Number-literal lemmas -/

/-- The first character outside the greedy accumulation set, or end of
input: where the number loop stops. -/
def numBoundary : List Char → Bool
  | [] => Bool.true
  | c :: _ => !(numChar c)

theorem numChar_ne_newline {c : Char} (h : numChar c = Bool.true) : ¬c = '\n' :=
  fun hh => absurd h (by subst hh; decide)

theorem parseNumberLoop_cons (il ip : Nat) (c : Char) (rest : List Char)
    (l p : Nat) (buf : List Char) (fl fp : Nat) :
    parseNumberLoop il ip (c :: rest) l p buf fl fp =
      if numChar c then
        parseNumberLoop il ip rest (nextLP c l p).1 (nextLP c l p).2 (buf ++ [c]) l (p + 1)
      else numFinish il ip fl fp buf ⟨c :: rest, l, p⟩ := rfl

theorem numFinish_some {buf : List Char} {q : ℚ} (h : parseF64 buf = some q)
    (il ip fl fp : Nat) (cr : CharReader) :
    numFinish il ip fl fp buf cr = .ok (⟨(il, fl), (ip, fp), .number q⟩, cr) := by
  simp [numFinish, h]

theorem numFinish_none {buf : List Char} (h : parseF64 buf = none)
    (il ip fl fp : Nat) (cr : CharReader) :
    numFinish il ip fl fp buf cr =
      .error (.invalidNumber "invalid float literal" (il, fl) (ip, fp)) := by
  simp [numFinish, h]

/-- The number loop consumes exactly the maximal run of number
characters and finishes at the boundary. -/
theorem parseNumberLoop_run : ∀ (tail : List Char), (∀ c ∈ tail, numChar c = Bool.true) →
    ∀ (rest : List Char), numBoundary rest = Bool.true →
    ∀ (l p il ip fl fp : Nat) (buf : List Char),
    parseNumberLoop il ip (tail ++ rest) l p buf fl fp =
      numFinish il ip (if tail = [] then fl else l)
        (if tail = [] then fp else p + tail.length) (buf ++ tail)
        ⟨rest, l, p + tail.length⟩
  | [], _, rest, hrest, l, p, il, ip, fl, fp, buf => by
    cases rest with
    | nil => simp [parseNumberLoop]
    | cons d rest2 =>
      have hd : numChar d = false := by simpa [numBoundary] using hrest
      rw [List.nil_append, parseNumberLoop_cons, if_neg (by simp [hd])]
      simp
  | c :: tail', h, rest, hrest, l, p, il, ip, fl, fp, buf => by
    have hc : numChar c = Bool.true := h c (by simp)
    rw [List.cons_append, parseNumberLoop_cons, if_pos hc,
      nextLP_not_newline (numChar_ne_newline hc)]
    rw [parseNumberLoop_run tail' (fun x hx => h x (by simp [hx])) rest hrest]
    cases tail' with
    | nil => simp
    | cons x xs =>
      have harith : p + 1 + (xs.length + 1) = p + (xs.length + 1 + 1) := by omega
      simp [harith]

/-- Dispatch of `Lexer::read` on a number-starting character. -/
theorem lexReadGo_numberEnter {c : Char} (hfirst : c = '-' ∨ c.isDigit)
    (s : List Char) (l p : Nat) :
    lexReadGo (c :: s) l p = parseNumberLoop l (p + 1) s l (p + 1) [c] l (p + 1) := by
  have hq : ¬c = '"' := by
    rcases hfirst with rfl | hd
    · decide
    · intro hh
      subst hh
      exact absurd hd (by decide)
  have hn : ¬c = '\n' := by
    rcases hfirst with rfl | hd
    · decide
    · intro hh
      subst hh
      exact absurd hd (by decide)
  simp [lexReadGo, hq, hfirst, parseNumber, CharReader.read, nextLP, hn]

/-- `Lexer::read` on a maximal number-character run whose text the
float parse accepts. -/
theorem lexReadGo_number_ok {c : Char} {tail rest : List Char} {q : ℚ}
    (hfirst : c = '-' ∨ c.isDigit) (htail : ∀ x ∈ tail, numChar x = Bool.true)
    (hrest : numBoundary rest = Bool.true)
    (hparse : parseF64 (c :: tail) = some q) (l p : Nat) :
    lexReadGo ((c :: tail) ++ rest) l p =
      .ok (⟨(l, l), (p + 1, p + (c :: tail).length), .number q⟩,
          ⟨rest, l, p + (c :: tail).length⟩) := by
  rw [List.cons_append, lexReadGo_numberEnter hfirst,
    parseNumberLoop_run tail htail rest hrest,
    numFinish_some (by simpa using hparse)]
  cases tail with
  | nil => simp
  | cons x xs =>
    have harith : p + 1 + (xs.length + 1) = p + (xs.length + 1 + 1) := by omega
    simp [harith]

/-- `Lexer::read` on a maximal number-character run whose text the
float parse rejects: the invalid-number error spans the entire run. -/
theorem lexReadGo_number_invalid {c : Char} {tail rest : List Char}
    (hfirst : c = '-' ∨ c.isDigit) (htail : ∀ x ∈ tail, numChar x = Bool.true)
    (hrest : numBoundary rest = Bool.true)
    (hparse : parseF64 (c :: tail) = none) (l p : Nat) :
    lexReadGo ((c :: tail) ++ rest) l p =
      .error (.invalidNumber "invalid float literal" (l, l)
        (p + 1, p + (c :: tail).length)) := by
  rw [List.cons_append, lexReadGo_numberEnter hfirst,
    parseNumberLoop_run tail htail rest hrest,
    numFinish_none (by simpa using hparse)]
  cases tail with
  | nil => simp
  | cons x xs =>
    have harith : p + 1 + (xs.length + 1) = p + (xs.length + 1 + 1) := by omega
    simp [harith]

/-! ## Length (consumption) lemmas -/

theorem lexReadGo_cons (c : Char) (rest : List Char) (l p : Nat) :
    lexReadGo (c :: rest) l p =
      (if c = '"' then parseString ⟨c :: rest, l, p⟩
       else if c = '-' ∨ c.isDigit then parseNumber ⟨c :: rest, l, p⟩
       else if c = 't' then
         match parseStatic ['r', 'u', 'e'] .true "true" ⟨c :: rest, l, p⟩ with
         | .error (.eof l' p') =>
           .ok (⟨(l', l'), (p', p'), .eof⟩, ⟨rest, (nextLP c l p).1, (nextLP c l p).2⟩)
         | r => r
       else if c = 'f' then
         match parseStatic ['a', 'l', 's', 'e'] .false "false" ⟨c :: rest, l, p⟩ with
         | .error (.eof l' p') =>
           .ok (⟨(l', l'), (p', p'), .eof⟩, ⟨rest, (nextLP c l p).1, (nextLP c l p).2⟩)
         | r => r
       else if c = 'n' then
         match parseStatic ['u', 'l', 'l'] .null "null" ⟨c :: rest, l, p⟩ with
         | .error (.eof l' p') =>
           .ok (⟨(l', l'), (p', p'), .eof⟩, ⟨rest, (nextLP c l p).1, (nextLP c l p).2⟩)
         | r => r
       else if c = ':' then parseDelimiter .colon ⟨c :: rest, l, p⟩
       else if c = ',' then parseDelimiter .comma ⟨c :: rest, l, p⟩
       else if c = '{' then parseDelimiter .leftBrace ⟨c :: rest, l, p⟩
       else if c = '}' then parseDelimiter .rightBrace ⟨c :: rest, l, p⟩
       else if c = '[' then parseDelimiter .leftBracket ⟨c :: rest, l, p⟩
       else if c = ']' then parseDelimiter .rightBracket ⟨c :: rest, l, p⟩
       else lexReadGo rest (nextLP c l p).1 (nextLP c l p).2) := rfl

theorem consume_len : ∀ (n : Nat) (cr cr' : CharReader),
    CharReader.consume cr n = .ok cr' → cr'.input.length + n = cr.input.length
  | 0, cr, cr', h => by
    simp [CharReader.consume] at h
    subst h
    rfl
  | n + 1, ⟨[], l, p⟩, cr', h => by
    simp [CharReader.consume, CharReader.read] at h
  | n + 1, ⟨c :: rest, l, p⟩, cr', h => by
    simp only [CharReader.consume, CharReader.read] at h
    have := consume_len n _ _ h
    dsimp at this ⊢
    omega

theorem parseStringLoop_len : ∀ (s : List Char) (l p : Nat) (buf : List Char)
    (il ip : Nat) {t : Token} {cr' : CharReader},
    parseStringLoop il ip s l p buf = .ok (t, cr') →
    cr'.input.length < s.length := by
  intro s
  induction s using bodyOk.induct with
  | case1 =>
    intro l p buf il ip t cr' h
    simp [parseStringLoop] at h
  | case2 rest' =>
    intro l p buf il ip t cr' h
    rw [parseStringLoop_quote] at h
    cases h
    simp
  | case3 =>
    intro l p buf il ip t cr' h
    rw [parseStringLoop_escEnd] at h
    cases h
  | case4 c2 raw' hbq ih =>
    intro l p buf il ip t cr' h
    rw [parseStringLoop_escape] at h
    have := ih _ _ _ il ip h
    simp at this ⊢
    omega
  | case5 c raw' hq hb ih =>
    intro l p buf il ip t cr' h
    rw [parseStringLoop_other hq hb] at h
    have := ih _ _ _ il ip h
    simp at this ⊢
    omega

theorem numFinish_state {il ip fl fp : Nat} {buf : List Char} {cr : CharReader}
    {t : Token} {cr' : CharReader} (h : numFinish il ip fl fp buf cr = .ok (t, cr')) :
    cr' = cr := by
  unfold numFinish at h
  cases hp : parseF64 buf <;> rw [hp] at h
  · cases h
  · cases h
    rfl

theorem parseNumberLoop_len : ∀ (s : List Char) (l p : Nat) (buf : List Char)
    (fl fp il ip : Nat) {t : Token} {cr' : CharReader},
    parseNumberLoop il ip s l p buf fl fp = .ok (t, cr') →
    cr'.input.length ≤ s.length
  | [], l, p, buf, fl, fp, il, ip, t, cr', h => by
    have := numFinish_state h
    subst this
    simp
  | c :: rest, l, p, buf, fl, fp, il, ip, t, cr', h => by
    rw [parseNumberLoop_cons] at h
    by_cases hc : numChar c
    · rw [if_pos hc] at h
      have := parseNumberLoop_len rest _ _ _ _ _ il ip h
      simp
      omega
    · rw [if_neg hc] at h
      have := numFinish_state h
      subst this
      simp

theorem parseStatic_len {src : List Char} {d : Data} {n : String}
    {cr : CharReader} {t : Token} {cr'' : CharReader}
    (h : parseStatic src d n cr = .ok (t, cr'')) :
    cr''.input.length < cr.input.length := by
  unfold parseStatic at h
  rcases cr with ⟨input, l, p⟩
  cases input with
  | nil => simp [CharReader.read] at h
  | cons c rest =>
    simp only [CharReader.read] at h
    rcases hsc : staticCheck l (p + 1) n rest src (nextLP c l p).1 (nextLP c l p).2 with
      _ | e
    all_goals rw [hsc] at h
    · rcases hcn : CharReader.consume ⟨rest, (nextLP c l p).1, (nextLP c l p).2⟩ src.length
        with e2 | cr3
      all_goals rw [hcn] at h
      · cases h
      · cases h
        have := consume_len _ _ _ hcn
        simp at this ⊢
        omega
    · cases h

theorem parseDelimiter_len {d : Data} {cr : CharReader} {t : Token}
    {cr' : CharReader} (h : parseDelimiter d cr = .ok (t, cr')) :
    cr'.input.length + 1 = cr.input.length := by
  unfold parseDelimiter at h
  rcases cr with ⟨input, l, p⟩
  cases input with
  | nil => simp [CharReader.read] at h
  | cons c rest =>
    simp only [CharReader.read] at h
    cases h
    rfl

/-- `Lexer::read` never lengthens the input, and consumes at least one
character whenever it produces a non-`EOF` token. -/
theorem lexReadGo_len : ∀ (s : List Char) (l p : Nat) {t : Token} {cr' : CharReader},
    lexReadGo s l p = .ok (t, cr') →
    cr'.input.length ≤ s.length ∧ (¬t.data = .eof → cr'.input.length < s.length)
  | [], l, p, t, cr', h => by
    rw [lexReadGo_nil] at h
    cases h
    exact ⟨Nat.le_refl _, fun hne => absurd rfl hne⟩
  | c :: rest, l, p, t, cr', h => by
    rw [lexReadGo_cons] at h
    by_cases h1 : c = '"'
    · rw [if_pos h1] at h
      unfold parseString at h
      simp only [CharReader.read] at h
      have := parseStringLoop_len _ _ _ _ _ _ h
      simp only [List.length_cons]
      exact ⟨by omega, fun _ => by omega⟩
    rw [if_neg h1] at h
    by_cases h2 : c = '-' ∨ c.isDigit
    · rw [if_pos h2] at h
      unfold parseNumber at h
      simp only [CharReader.read] at h
      have := parseNumberLoop_len _ _ _ _ _ _ _ _ h
      simp only [List.length_cons]
      exact ⟨by omega, fun _ => by omega⟩
    rw [if_neg h2] at h
    by_cases h3 : c = 't'
    · rw [if_pos h3] at h
      rcases hps : parseStatic ['r', 'u', 'e'] .true "true" ⟨c :: rest, l, p⟩ with e | ok
      · rw [hps] at h
        cases e with
        | eof l2 p2 =>
          cases h
          dsimp
          simp only [List.length_cons]
          exact ⟨by omega, fun hne => absurd trivial hne⟩
        | unclosedStringLiteral a b => exact absurd h (by simp)
        | readerError s2 => exact absurd h (by simp)
        | invalidToken a b c2 => exact absurd h (by simp)
        | invalidNumber a b c2 => exact absurd h (by simp)
      · rw [hps] at h
        cases h
        have := parseStatic_len hps
        dsimp at this
        simp only [List.length_cons]
        exact ⟨by omega, fun _ => by omega⟩
    rw [if_neg h3] at h
    by_cases h4 : c = 'f'
    · rw [if_pos h4] at h
      rcases hps : parseStatic ['a', 'l', 's', 'e'] .false "false" ⟨c :: rest, l, p⟩
        with e | ok
      · rw [hps] at h
        cases e with
        | eof l2 p2 =>
          cases h
          dsimp
          simp only [List.length_cons]
          exact ⟨by omega, fun hne => absurd trivial hne⟩
        | unclosedStringLiteral a b => exact absurd h (by simp)
        | readerError s2 => exact absurd h (by simp)
        | invalidToken a b c2 => exact absurd h (by simp)
        | invalidNumber a b c2 => exact absurd h (by simp)
      · rw [hps] at h
        cases h
        have := parseStatic_len hps
        dsimp at this
        simp only [List.length_cons]
        exact ⟨by omega, fun _ => by omega⟩
    rw [if_neg h4] at h
    by_cases h5 : c = 'n'
    · rw [if_pos h5] at h
      rcases hps : parseStatic ['u', 'l', 'l'] .null "null" ⟨c :: rest, l, p⟩ with e | ok
      · rw [hps] at h
        cases e with
        | eof l2 p2 =>
          cases h
          dsimp
          simp only [List.length_cons]
          exact ⟨by omega, fun hne => absurd trivial hne⟩
        | unclosedStringLiteral a b => exact absurd h (by simp)
        | readerError s2 => exact absurd h (by simp)
        | invalidToken a b c2 => exact absurd h (by simp)
        | invalidNumber a b c2 => exact absurd h (by simp)
      · rw [hps] at h
        cases h
        have := parseStatic_len hps
        dsimp at this
        simp only [List.length_cons]
        exact ⟨by omega, fun _ => by omega⟩
    rw [if_neg h5] at h
    by_cases h6 : c = ':'
    · rw [if_pos h6] at h
      have := parseDelimiter_len h
      dsimp at this
      simp only [List.length_cons]
      exact ⟨by omega, fun _ => by omega⟩
    rw [if_neg h6] at h
    by_cases h7 : c = ','
    · rw [if_pos h7] at h
      have := parseDelimiter_len h
      dsimp at this
      simp only [List.length_cons]
      exact ⟨by omega, fun _ => by omega⟩
    rw [if_neg h7] at h
    by_cases h8 : c = '{'
    · rw [if_pos h8] at h
      have := parseDelimiter_len h
      dsimp at this
      simp only [List.length_cons]
      exact ⟨by omega, fun _ => by omega⟩
    rw [if_neg h8] at h
    by_cases h9 : c = '}'
    · rw [if_pos h9] at h
      have := parseDelimiter_len h
      dsimp at this
      simp only [List.length_cons]
      exact ⟨by omega, fun _ => by omega⟩
    rw [if_neg h9] at h
    by_cases h10 : c = '['
    · rw [if_pos h10] at h
      have := parseDelimiter_len h
      dsimp at this
      simp only [List.length_cons]
      exact ⟨by omega, fun _ => by omega⟩
    rw [if_neg h10] at h
    by_cases h11 : c = ']'
    · rw [if_pos h11] at h
      have := parseDelimiter_len h
      dsimp at this
      simp only [List.length_cons]
      exact ⟨by omega, fun _ => by omega⟩
    rw [if_neg h11] at h
    have := lexReadGo_len rest (nextLP c l p).1 (nextLP c l p).2 h
    simp only [List.length_cons]
    exact ⟨by omega, fun hne => by have := this.2 hne; omega⟩

/-! ## Parser unfolding lemmas -/

theorem parseF_zero (st : PState) : parseF 0 st = fuelError := rfl

theorem parseF_succ (fuel : Nat) (st : PState) :
    parseF (fuel + 1) st =
      (match readToken st with
       | .error e => .error e
       | .ok (t, st') =>
         match t.data with
         | .leftBrace => parseObjectF fuel st' []
         | .leftBracket => parseArrayF fuel st' []
         | .string s => .ok (.string s, st')
         | .number q => .ok (.number q, st')
         | .true => .ok (.true, st')
         | .false => .ok (.false, st')
         | .null => .ok (.null, st')
         | .eof => .ok (.eof, st')
         | _ => .error (.syntaxError st'.line st'.pos .valueKind)) := rfl

theorem parseObjectF_zero (st : PState) (acc : List (String × Node)) :
    parseObjectF 0 st acc = fuelError := rfl

theorem parseObjectF_succ (fuel : Nat) (st : PState) (acc : List (String × Node)) :
    parseObjectF (fuel + 1) st acc =
      (match readToken st with
       | .error e => .error e
       | .ok (kt, st1) =>
         match kt.data with
         | .string key =>
           (match readToken st1 with
            | .error e => .error e
            | .ok (ct, st2) =>
              match ct.data with
              | .colon =>
                (match parseF fuel st2 with
                 | .error e => .error e
                 | .ok (v, st3) =>
                   if isValueNode v then
                     (match readToken st3 with
                      | .error e => .error e
                      | .ok (sep, st4) =>
                        match sep.data with
                        | .comma => parseObjectF fuel st4 (objInsert key v acc)
                        | .rightBrace => .ok (.object (objInsert key v acc), st4)
                        | _ => .error (.syntaxError st4.line st4.pos .objectSep))
                   else .error (.syntaxError st3.line st3.pos .objectValueKind))
              | _ => .error (.syntaxError st2.line st2.pos .objectColon))
         | _ => .error (.syntaxError st1.line st1.pos .objectKeyString)) := rfl

theorem parseArrayF_zero (st : PState) (acc : List Node) :
    parseArrayF 0 st acc = fuelError := rfl

theorem parseArrayF_succ (fuel : Nat) (st : PState) (acc : List Node) :
    parseArrayF (fuel + 1) st acc =
      (match parseF fuel st with
       | .error e => .error e
       | .ok (v, st1) =>
         if isValueNode v then
           (match readToken st1 with
            | .error e => .error e
            | .ok (sep, st2) =>
              match sep.data with
              | .comma => parseArrayF fuel st2 (acc ++ [v])
              | .rightBracket => .ok (.array (acc ++ [v]), st2)
              | _ => .error (.syntaxError st2.line st2.pos .arraySep))
         else .error (.syntaxError st1.line st1.pos .arrayValueKind)) := rfl

theorem readToken_len {st : PState} {t : Token} {st' : PState}
    (h : readToken st = .ok (t, st')) :
    st'.cr.input.length ≤ st.cr.input.length ∧
      (¬t.data = .eof → st'.cr.input.length < st.cr.input.length) := by
  unfold readToken at h
  rcases hlr : lexRead st.cr with e | pair
  all_goals rw [hlr] at h
  · cases h
  · rcases pair with ⟨t2, cr2⟩
    cases h
    exact lexReadGo_len _ _ _ hlr

/-- One parse call never lengthens the input; a call that returns a
legal value node, and every object/array run, consumes at least one
character. -/
theorem parse_len : ∀ (fuel : Nat),
    (∀ (st : PState) (n : Node) (st' : PState), parseF fuel st = .ok (n, st') →
      st'.cr.input.length ≤ st.cr.input.length ∧
        (isValueNode n = Bool.true → st'.cr.input.length < st.cr.input.length)) ∧
    (∀ (st : PState) (acc : List (String × Node)) (n : Node) (st' : PState),
      parseObjectF fuel st acc = .ok (n, st') →
      st'.cr.input.length < st.cr.input.length) ∧
    (∀ (st : PState) (acc : List Node) (n : Node) (st' : PState),
      parseArrayF fuel st acc = .ok (n, st') →
      st'.cr.input.length < st.cr.input.length) := by
  intro fuel
  induction fuel with
  | zero =>
    refine ⟨fun st n st' h => ?_, fun st acc n st' h => ?_, fun st acc n st' h => ?_⟩ <;>
      exact absurd h (by simp [parseF_zero, parseObjectF_zero, parseArrayF_zero, fuelError])
  | succ fuel ih =>
    obtain ⟨ihV, ihO, ihA⟩ := ih
    refine ⟨fun st n st' h => ?_, fun st acc n st' h => ?_, fun st acc n st' h => ?_⟩
    · rw [parseF_succ] at h
      rcases hrt : readToken st with e | ⟨t, st1⟩
      all_goals rw [hrt] at h
      · cases h
      · have hlen := readToken_len hrt
        rcases t with ⟨tl, tp, td⟩
        cases td <;> dsimp at h hlen
        case string s =>
          cases h
          exact ⟨hlen.1, fun _ => hlen.2 (by simp)⟩
        case number q =>
          cases h
          exact ⟨hlen.1, fun _ => hlen.2 (by simp)⟩
        case true =>
          cases h
          exact ⟨hlen.1, fun _ => hlen.2 (by simp)⟩
        case false =>
          cases h
          exact ⟨hlen.1, fun _ => hlen.2 (by simp)⟩
        case null =>
          cases h
          exact ⟨hlen.1, fun _ => hlen.2 (by simp)⟩
        case eof =>
          cases h
          exact ⟨hlen.1, fun hv => absurd hv (by simp [isValueNode])⟩
        case leftBrace =>
          have := ihO st1 [] n st' h
          have hst1 := hlen.2 (by simp)
          exact ⟨by omega, fun _ => by omega⟩
        case leftBracket =>
          have := ihA st1 [] n st' h
          have hst1 := hlen.2 (by simp)
          exact ⟨by omega, fun _ => by omega⟩
        case colon => cases h
        case comma => cases h
        case rightBracket => cases h
        case rightBrace => cases h
    · rw [parseObjectF_succ] at h
      rcases hrt : readToken st with e | ⟨kt, st1⟩
      all_goals rw [hrt] at h
      · cases h
      · have hlen1 := readToken_len hrt
        rcases kt with ⟨ktl, ktp, ktd⟩
        cases ktd <;> dsimp at h hlen1 <;> try cases h
        case string key =>
        have hst1 := hlen1.2 (by simp)
        rcases hrt2 : readToken st1 with e | ⟨ct, st2⟩
        all_goals rw [hrt2] at h
        · cases h
        · have hlen2 := readToken_len hrt2
          rcases ct with ⟨ctl, ctp, ctd⟩
          cases ctd <;> dsimp at h hlen2 <;> try cases h
          case colon =>
          have hst2 := hlen2.2 (by simp)
          rcases hpv : parseF fuel st2 with e | ⟨v, st3⟩
          all_goals rw [hpv] at h
          · cases h
          · dsimp only at h
            have hlen3 := (ihV st2 v st3 hpv).1
            by_cases hv : isValueNode v
            · rw [if_pos hv] at h
              rcases hrt4 : readToken st3 with e | ⟨sep, st4⟩
              all_goals rw [hrt4] at h
              · cases h
              · have hlen4 := readToken_len hrt4
                rcases sep with ⟨sl, sp, sd⟩
                cases sd <;> dsimp at h hlen4 <;> try cases h
                · have hst4 := hlen4.2 (by simp)
                  have := ihO st4 (objInsert key v acc) n st' h
                  omega
                · have hst4 := hlen4.2 (by simp)
                  omega
            · rw [if_neg hv] at h
              cases h
    · rw [parseArrayF_succ] at h
      rcases hpv : parseF fuel st with e | ⟨v, st1⟩
      all_goals rw [hpv] at h
      · cases h
      · dsimp only at h
        by_cases hv : isValueNode v
        · rw [if_pos hv] at h
          have hlen1 := (ihV st v st1 hpv).2 hv
          rcases hrt2 : readToken st1 with e | ⟨sep, st2⟩
          all_goals rw [hrt2] at h
          · cases h
          · have hlen2 := readToken_len hrt2
            rcases sep with ⟨sl, sp, sd⟩
            cases sd <;> dsimp at h hlen2 <;> try cases h
            · have hst2 := hlen2.2 (by simp)
              have := ihA st2 (acc ++ [v]) n st' h
              omega
            · have hst2 := hlen2.2 (by simp)
              omega
        · rw [if_neg hv] at h
          cases h

/-! ## Fuel irrelevance -/

/-- Any two sufficiently large fuels give the same answer: one unit of
fuel per recursion layer is covered by `2·|input| + 1` for a value
parse and `2·|input| + 2` for the object/array loops. -/
theorem parse_mono : ∀ (f : Nat),
    (∀ (st : PState) (g : Nat), 2 * st.cr.input.length + 1 ≤ f →
      2 * st.cr.input.length + 1 ≤ g → parseF f st = parseF g st) ∧
    (∀ (st : PState) (acc : List (String × Node)) (g : Nat),
      2 * st.cr.input.length + 2 ≤ f → 2 * st.cr.input.length + 2 ≤ g →
      parseObjectF f st acc = parseObjectF g st acc) ∧
    (∀ (st : PState) (acc : List Node) (g : Nat),
      2 * st.cr.input.length + 2 ≤ f → 2 * st.cr.input.length + 2 ≤ g →
      parseArrayF f st acc = parseArrayF g st acc) := by
  intro f
  induction f with
  | zero =>
    refine ⟨fun st g hf => ?_, fun st acc g hf => ?_, fun st acc g hf => ?_⟩ <;> omega
  | succ f ih =>
    obtain ⟨ihV, ihO, ihA⟩ := ih
    refine ⟨fun st g hf hg => ?_, fun st acc g hf hg => ?_, fun st acc g hf hg => ?_⟩
    · cases g with
      | zero => omega
      | succ g =>
        rw [parseF_succ, parseF_succ]
        rcases hrt : readToken st with e | ⟨t, st1⟩
        · rfl
        · have hlen := readToken_len hrt
          dsimp only
          rcases t with ⟨tl, tp, td⟩
          cases td <;> dsimp at hlen ⊢ <;> try rfl
          · -- leftBracket
            have hst1 := hlen.2 (by simp)
            exact ihA st1 [] g (by omega) (by omega)
          · -- leftBrace
            have hst1 := hlen.2 (by simp)
            exact ihO st1 [] g (by omega) (by omega)
    · cases g with
      | zero => omega
      | succ g =>
        rw [parseObjectF_succ, parseObjectF_succ]
        rcases hrt : readToken st with e | ⟨kt, st1⟩
        · rfl
        · have hlen1 := readToken_len hrt
          dsimp only
          rcases kt with ⟨ktl, ktp, ktd⟩
          cases ktd <;> dsimp at hlen1 ⊢ <;> try rfl
          -- string key
          have hst1 := hlen1.2 (by simp)
          rcases hrt2 : readToken st1 with e | ⟨ct, st2⟩
          · rfl
          · have hlen2 := readToken_len hrt2
            dsimp only
            rcases ct with ⟨ctl, ctp, ctd⟩
            cases ctd <;> dsimp at hlen2 ⊢ <;> try rfl
            -- colon
            have hst2 := hlen2.2 (by simp)
            rw [ihV st2 g (by omega) (by omega)]
            rcases hpv : parseF g st2 with e | ⟨v, st3⟩
            · rfl
            · dsimp only
              have hlen3 : st3.cr.input.length ≤ st2.cr.input.length :=
                ((parse_len g).1 st2 v st3 hpv).1
              by_cases hv : isValueNode v
              · rw [if_pos hv, if_pos hv]
                rcases hrt4 : readToken st3 with e | ⟨sep, st4⟩
                · rfl
                · have hlen4 := readToken_len hrt4
                  dsimp only
                  rcases sep with ⟨sl, sp, sd⟩
                  cases sd <;> dsimp at hlen4 ⊢ <;> try rfl
                  -- comma
                  have hst4 := hlen4.2 (by simp)
                  exact ihO st4 (objInsert _ v acc) g (by omega) (by omega)
              · rw [if_neg hv, if_neg hv]
    · cases g with
      | zero => omega
      | succ g =>
        rw [parseArrayF_succ, parseArrayF_succ]
        rw [ihV st g (by omega) (by omega)]
        rcases hpv : parseF g st with e | ⟨v, st1⟩
        · rfl
        · dsimp only
          by_cases hv : isValueNode v
          · rw [if_pos hv, if_pos hv]
            have hlen1 : st1.cr.input.length < st.cr.input.length :=
              ((parse_len g).1 st v st1 hpv).2 hv
            rcases hrt2 : readToken st1 with e | ⟨sep, st2⟩
            · rfl
            · have hlen2 := readToken_len hrt2
              dsimp only
              rcases sep with ⟨sl, sp, sd⟩
              cases sd <;> dsimp at hlen2 ⊢ <;> try rfl
              -- comma
              have hst2 := hlen2.2 (by simp)
              exact ihA st2 (acc ++ [v]) g (by omega) (by omega)
          · rw [if_neg hv, if_neg hv]

/-- `Parser::parse` equals the fueled parser at any sufficient fuel. -/
theorem parse_eq_parseF (fuel : Nat) (st : PState)
    (h : 2 * st.cr.input.length + 1 ≤ fuel) :
    Parser.parse st = parseF fuel st := by
  unfold Parser.parse
  exact (parse_mono (2 * st.cr.input.length + 3)).1 st fuel (by omega) h

/-! ## End-of-input behaviour -/

/-- Parsing a state whose remaining input is all non-token-start
characters yields the `EOF` sentinel and an empty-input state that is a
fixed point of `parse`. -/
theorem parse_allSkip (st : PState) (h : ∀ c ∈ st.cr.input, tokenStart c = false) :
    Parser.parse st =
      .ok (.eof,
        ⟨⟨[], (stLP st.cr.input (st.cr.line, st.cr.pos)).1,
              (stLP st.cr.input (st.cr.line, st.cr.pos)).2⟩,
         ((stLP st.cr.input (st.cr.line, st.cr.pos)).1,
          (stLP st.cr.input (st.cr.line, st.cr.pos)).1),
         ((stLP st.cr.input (st.cr.line, st.cr.pos)).2,
          (stLP st.cr.input (st.cr.line, st.cr.pos)).2)⟩) := by
  rcases st with ⟨⟨input, l, p⟩, lr, pr⟩
  rw [parse_eq_parseF (2 * input.length + 1) ⟨⟨input, l, p⟩, lr, pr⟩
    (Nat.le_refl _), parseF_succ]
  have hread : readToken ⟨⟨input, l, p⟩, lr, pr⟩ =
      .ok (⟨((stLP input (l, p)).1, (stLP input (l, p)).1),
            ((stLP input (l, p)).2, (stLP input (l, p)).2), .eof⟩,
          ⟨⟨[], (stLP input (l, p)).1, (stLP input (l, p)).2⟩,
            ((stLP input (l, p)).1, (stLP input (l, p)).1),
            ((stLP input (l, p)).2, (stLP input (l, p)).2)⟩) := by
    unfold readToken
    rw [lexRead_eq]
    dsimp
    rw [lexReadGo_allSkip input h l p]
  rw [hread]

/-- The empty-input parser state with matching token ranges is a fixed
point: every further `parse` call returns the sentinel again. -/
theorem parse_empty_fixpoint (L P : Nat) :
    Parser.parse ⟨⟨[], L, P⟩, (L, L), (P, P)⟩ =
      .ok (.eof, ⟨⟨[], L, P⟩, (L, L), (P, P)⟩) := by
  have hh := parse_allSkip ⟨⟨[], L, P⟩, (L, L), (P, P)⟩ (by simp)
  simpa [stLP_nil] using hh

/-! ## The token-data stream: unfolding, fuel irrelevance -/

theorem tokStreamF_mono : ∀ (f : Nat) (g : Nat) (cr : CharReader),
    cr.input.length < f → cr.input.length < g → tokStreamF f cr = tokStreamF g cr
  | 0, g, cr, hf, hg => by omega
  | f + 1, 0, cr, hf, hg => by omega
  | f + 1, g + 1, cr, hf, hg => by
    simp only [tokStreamF]
    rcases hlr : lexRead cr with e | ⟨t, cr'⟩
    · rfl
    · dsimp only
      by_cases he : t.data = .eof
      · rw [if_pos he, if_pos he]
      · rw [if_neg he, if_neg he]
        have hlen := (lexReadGo_len _ _ _ hlr).2 he
        rw [tokStreamF_mono f g cr' (by omega) (by omega)]

theorem tokStream_error {cr : CharReader} {e : LexError} (h : lexRead cr = .error e) :
    tokStream cr = ([], some e.kind) := by
  unfold tokStream
  rw [tokStreamF, h]

theorem tokStream_eof {cr : CharReader} {t : Token} {cr' : CharReader}
    (h : lexRead cr = .ok (t, cr')) (he : t.data = .eof) :
    tokStream cr = ([], none) := by
  unfold tokStream
  rw [tokStreamF, h]
  simp [he]

theorem tokStream_tok {cr : CharReader} {t : Token} {cr' : CharReader}
    (h : lexRead cr = .ok (t, cr')) (he : ¬t.data = .eof) :
    tokStream cr = (t.data :: (tokStream cr').1, (tokStream cr').2) := by
  unfold tokStream
  rw [tokStreamF, h]
  simp only [if_neg he]
  have hlen := (lexReadGo_len _ _ _ h).2 he
  rw [tokStreamF_mono cr.input.length (cr'.input.length + 1) cr' (by omega) (by omega)]

/-- Inversion: an empty, error-free stream can only come from an `EOF`
read. -/
theorem tokStream_empty_inv {cr : CharReader} (h : tokStream cr = ([], none)) :
    ∃ t cr', lexRead cr = .ok (t, cr') ∧ t.data = .eof := by
  rcases hlr : lexRead cr with e | ⟨t, cr'⟩
  · rw [tokStream_error hlr] at h
    cases h
  · by_cases he : t.data = .eof
    · exact ⟨t, cr', rfl, he⟩
    · rw [tokStream_tok hlr he] at h
      cases h

/-- Reading with only non-token-start characters left gives the empty
stream. -/
theorem tokStream_allSkip {cr : CharReader}
    (h : ∀ c ∈ cr.input, tokenStart c = false) : tokStream cr = ([], none) := by
  rcases cr with ⟨input, l, p⟩
  exact tokStream_eof (by rw [lexRead_eq]; exact lexReadGo_allSkip input h l p) rfl

/-- Inserting non-token-start characters in front of the input does not
change the token-data stream (only the stored positions). -/
theorem tokStream_skipPrefix : ∀ (ws : List Char),
    (∀ c ∈ ws, tokenStart c = false) → ∀ (s : List Char) (l p : Nat),
    tokStream ⟨ws ++ s, l, p⟩ = tokStream ⟨s, (stLP ws (l, p)).1, (stLP ws (l, p)).2⟩
  | [], _, s, l, p => by simp [stLP_nil]
  | c :: ws', h, s, l, p => by
    have hlex : lexRead ⟨(c :: ws') ++ s, l, p⟩ =
        lexRead ⟨ws' ++ s, (nextLP c l p).1, (nextLP c l p).2⟩ := by
      rw [lexRead_eq, lexRead_eq]
      exact lexReadGo_skip (h c (by simp)) _ _ _
    have hstep := tokStream_skipPrefix ws' (fun x hx => h x (by simp [hx])) s
      (nextLP c l p).1 (nextLP c l p).2
    rw [stLP_cons]
    rw [← hstep]
    -- both sides only differ by a leading skip character; their first
    -- lexer answers agree, hence so do the streams
    rcases hlr : lexRead ⟨ws' ++ s, (nextLP c l p).1, (nextLP c l p).2⟩ with e | ⟨t, cr'⟩
    · rw [tokStream_error (hlex.trans hlr), tokStream_error hlr]
    · by_cases he : t.data = .eof
      · rw [tokStream_eof (hlex.trans hlr) he, tokStream_eof hlr he]
      · rw [tokStream_tok (hlex.trans hlr) he, tokStream_tok hlr he]

/-! ## Token payload shapes -/

theorem parseStringLoop_data : ∀ (s : List Char) (l p : Nat) (buf : List Char)
    (il ip : Nat) {t : Token} {cr' : CharReader},
    parseStringLoop il ip s l p buf = .ok (t, cr') →
    ∃ str, t.data = .string str := by
  intro s
  induction s using bodyOk.induct with
  | case1 =>
    intro l p buf il ip t cr' h
    simp [parseStringLoop] at h
  | case2 rest' =>
    intro l p buf il ip t cr' h
    rw [parseStringLoop_quote] at h
    cases h
    exact ⟨_, rfl⟩
  | case3 =>
    intro l p buf il ip t cr' h
    rw [parseStringLoop_escEnd] at h
    cases h
  | case4 c2 raw' hbq ih =>
    intro l p buf il ip t cr' h
    rw [parseStringLoop_escape] at h
    exact ih _ _ _ il ip h
  | case5 c raw' hq hb ih =>
    intro l p buf il ip t cr' h
    rw [parseStringLoop_other hq hb] at h
    exact ih _ _ _ il ip h

theorem numFinish_data {il ip fl fp : Nat} {buf : List Char} {cr : CharReader}
    {t : Token} {cr' : CharReader} (h : numFinish il ip fl fp buf cr = .ok (t, cr')) :
    ∃ q, t.data = .number q := by
  unfold numFinish at h
  cases hp : parseF64 buf <;> rw [hp] at h
  · cases h
  · cases h
    exact ⟨_, rfl⟩

theorem parseNumberLoop_data : ∀ (s : List Char) (l p : Nat) (buf : List Char)
    (fl fp il ip : Nat) {t : Token} {cr' : CharReader},
    parseNumberLoop il ip s l p buf fl fp = .ok (t, cr') →
    ∃ q, t.data = .number q
  | [], l, p, buf, fl, fp, il, ip, t, cr', h => numFinish_data h
  | c :: rest, l, p, buf, fl, fp, il, ip, t, cr', h => by
    rw [parseNumberLoop_cons] at h
    by_cases hc : numChar c
    · rw [if_pos hc] at h
      exact parseNumberLoop_data rest _ _ _ _ _ il ip h
    · rw [if_neg hc] at h
      exact numFinish_data h

theorem parseStatic_data {src : List Char} {d : Data} {n : String}
    {cr : CharReader} {t : Token} {cr'' : CharReader}
    (h : parseStatic src d n cr = .ok (t, cr'')) : t.data = d := by
  unfold parseStatic at h
  rcases cr with ⟨input, l, p⟩
  cases input with
  | nil => simp [CharReader.read] at h
  | cons c rest =>
    simp only [CharReader.read] at h
    rcases hsc : staticCheck l (p + 1) n rest src (nextLP c l p).1 (nextLP c l p).2 with
      _ | e
    all_goals rw [hsc] at h
    · rcases hcn : CharReader.consume ⟨rest, (nextLP c l p).1, (nextLP c l p).2⟩ src.length
        with e2 | cr3
      all_goals rw [hcn] at h
      · cases h
      · cases h
        rfl
    · cases h

theorem parseDelimiter_data {d : Data} {cr : CharReader} {t : Token}
    {cr' : CharReader} (h : parseDelimiter d cr = .ok (t, cr')) : t.data = d := by
  unfold parseDelimiter at h
  rcases cr with ⟨input, l, p⟩
  cases input with
  | nil => simp [CharReader.read] at h
  | cons c rest =>
    simp only [CharReader.read] at h
    cases h
    rfl

theorem staticCheck_nil_src (il ip : Nat) (name : String) (input : List Char)
    (l p : Nat) : staticCheck il ip name input [] l p = none := by
  cases input <;> rfl

theorem staticCheck_cons (il ip : Nat) (name : String) (c : Char)
    (rest : List Char) (e : Char) (es : List Char) (l p : Nat) :
    staticCheck il ip name (c :: rest) (e :: es) l p =
      if e = c then staticCheck il ip name rest es (nextLP c l p).1 (nextLP c l p).2
      else some (.invalidToken name (il, l) (ip, p + 1)) := rfl

/-- A `staticCheck` that runs out of input only saw characters of the
expected keyword text. -/
theorem staticCheck_eof_mem : ∀ (input source : List Char) (il ip : Nat)
    (name : String) (l p l2 p2 : Nat),
    staticCheck il ip name input source l p = some (.eof l2 p2) →
    ∀ c ∈ input, c ∈ source
  | input, [], il, ip, name, l, p, l2, p2, h => by
    rw [staticCheck_nil_src] at h
    cases h
  | [], e :: es, il, ip, name, l, p, l2, p2, h => by
    intro c hc
    cases hc
  | c :: rest, e :: es, il, ip, name, l, p, l2, p2, h => by
    rw [staticCheck_cons] at h
    by_cases hec : e = c
    · rw [if_pos hec] at h
      intro x hx
      rcases hx with _ | hx
      · subst hec
        simp
      · simp only [List.mem_cons]
        right
        exact staticCheck_eof_mem rest es il ip name _ _ l2 p2 h x (by assumption)
    · rw [if_neg hec] at h
      cases h

theorem parseStatic_eof_inv {src : List Char} {d : Data} {n : String}
    {c : Char} {rest : List Char} {l p l2 p2 : Nat}
    (h : parseStatic src d n ⟨c :: rest, l, p⟩ = .error (.eof l2 p2)) :
    staticCheck l (p + 1) n rest src (nextLP c l p).1 (nextLP c l p).2 =
      some (.eof l2 p2) := by
  unfold parseStatic at h
  simp only [CharReader.read] at h
  rcases hsc : staticCheck l (p + 1) n rest src (nextLP c l p).1 (nextLP c l p).2 with
    _ | e
  all_goals rw [hsc] at h
  · rcases hcn : CharReader.consume ⟨rest, (nextLP c l p).1, (nextLP c l p).2⟩ src.length
      with e2 | cr3
    all_goals rw [hcn] at h
    · cases h
    · cases h
  · cases h
    rfl

/-- After an `EOF` token is produced, only non-token-start characters
remain: further reads stay at `EOF`. -/
theorem lexReadGo_eof_rest : ∀ (s : List Char) (l p : Nat) {t : Token}
    {cr' : CharReader}, lexReadGo s l p = .ok (t, cr') → t.data = .eof →
    ∀ c ∈ cr'.input, tokenStart c = false
  | [], l, p, t, cr', h, he => by
    rw [lexReadGo_nil] at h
    cases h
    intro c hc
    cases hc
  | c :: rest, l, p, t, cr', h, he => by
    rw [lexReadGo_cons] at h
    by_cases h1 : c = '"'
    · rw [if_pos h1] at h
      unfold parseString at h
      simp only [CharReader.read] at h
      obtain ⟨str, hstr⟩ := parseStringLoop_data _ _ _ _ _ _ h
      rw [he] at hstr
      cases hstr
    rw [if_neg h1] at h
    by_cases h2 : c = '-' ∨ c.isDigit
    · rw [if_pos h2] at h
      unfold parseNumber at h
      simp only [CharReader.read] at h
      obtain ⟨q, hq⟩ := parseNumberLoop_data _ _ _ _ _ _ _ _ h
      rw [he] at hq
      cases hq
    rw [if_neg h2] at h
    by_cases h3 : c = 't'
    · rw [if_pos h3] at h
      rcases hps : parseStatic ['r', 'u', 'e'] .true "true" ⟨c :: rest, l, p⟩ with e | ok
      · rw [hps] at h
        cases e with
        | eof l2 p2 =>
          cases h
          subst h3
          intro x hx
          have hmem := staticCheck_eof_mem rest ['r', 'u', 'e'] _ _ _ _ _ l2 p2
            (parseStatic_eof_inv hps) x hx
          have hx3 : x = 'r' ∨ x = 'u' ∨ x = 'e' := by simpa using hmem
          rcases hx3 with rfl | rfl | rfl <;> decide
        | unclosedStringLiteral a b => exact absurd h (by simp)
        | readerError s2 => exact absurd h (by simp)
        | invalidToken a b c2 => exact absurd h (by simp)
        | invalidNumber a b c2 => exact absurd h (by simp)
      · rw [hps] at h
        cases h
        have := parseStatic_data hps
        rw [he] at this
        cases this
    rw [if_neg h3] at h
    by_cases h4 : c = 'f'
    · rw [if_pos h4] at h
      rcases hps : parseStatic ['a', 'l', 's', 'e'] .false "false" ⟨c :: rest, l, p⟩
        with e | ok
      · rw [hps] at h
        cases e with
        | eof l2 p2 =>
          cases h
          subst h4
          intro x hx
          have hmem := staticCheck_eof_mem rest ['a', 'l', 's', 'e'] _ _ _ _ _ l2 p2
            (parseStatic_eof_inv hps) x hx
          have hx4 : x = 'a' ∨ x = 'l' ∨ x = 's' ∨ x = 'e' := by simpa using hmem
          rcases hx4 with rfl | rfl | rfl | rfl <;> decide
        | unclosedStringLiteral a b => exact absurd h (by simp)
        | readerError s2 => exact absurd h (by simp)
        | invalidToken a b c2 => exact absurd h (by simp)
        | invalidNumber a b c2 => exact absurd h (by simp)
      · rw [hps] at h
        cases h
        have := parseStatic_data hps
        rw [he] at this
        cases this
    rw [if_neg h4] at h
    by_cases h5 : c = 'n'
    · rw [if_pos h5] at h
      rcases hps : parseStatic ['u', 'l', 'l'] .null "null" ⟨c :: rest, l, p⟩ with e | ok
      · rw [hps] at h
        cases e with
        | eof l2 p2 =>
          cases h
          subst h5
          intro x hx
          have hmem := staticCheck_eof_mem rest ['u', 'l', 'l'] _ _ _ _ _ l2 p2
            (parseStatic_eof_inv hps) x hx
          have hx3 : x = 'u' ∨ x = 'l' := by simpa using hmem
          rcases hx3 with rfl | rfl <;> decide
        | unclosedStringLiteral a b => exact absurd h (by simp)
        | readerError s2 => exact absurd h (by simp)
        | invalidToken a b c2 => exact absurd h (by simp)
        | invalidNumber a b c2 => exact absurd h (by simp)
      · rw [hps] at h
        cases h
        have := parseStatic_data hps
        rw [he] at this
        cases this
    rw [if_neg h5] at h
    by_cases h6 : c = ':'
    · rw [if_pos h6] at h
      have := parseDelimiter_data h
      rw [he] at this
      cases this
    rw [if_neg h6] at h
    by_cases h7 : c = ','
    · rw [if_pos h7] at h
      have := parseDelimiter_data h
      rw [he] at this
      cases this
    rw [if_neg h7] at h
    by_cases h8 : c = '{'
    · rw [if_pos h8] at h
      have := parseDelimiter_data h
      rw [he] at this
      cases this
    rw [if_neg h8] at h
    by_cases h9 : c = '}'
    · rw [if_pos h9] at h
      have := parseDelimiter_data h
      rw [he] at this
      cases this
    rw [if_neg h9] at h
    by_cases h10 : c = '['
    · rw [if_pos h10] at h
      have := parseDelimiter_data h
      rw [he] at this
      cases this
    rw [if_neg h10] at h
    by_cases h11 : c = ']'
    · rw [if_pos h11] at h
      have := parseDelimiter_data h
      rw [he] at this
      cases this
    rw [if_neg h11] at h
    exact lexReadGo_eof_rest rest _ _ h he

/-! ## Parsing depends only on the token-data stream -/

/-- Two parser states with the same token-data stream. -/
def StreamEq (st1 st2 : PState) : Prop := tokStream st1.cr = tokStream st2.cr

/-- Correspondence of two parse results: same tree on success (up to
the stream relation on the remaining state), failure together on
failure. -/
def ResSim : Except PError (Node × PState) → Except PError (Node × PState) → Prop
  | .ok (n1, st1), .ok (n2, st2) => n1 = n2 ∧ StreamEq st1 st2
  | .error _, .error _ => True
  | _, _ => False

/-- One token read from stream-equal states: both fail, or both produce
the same payload and stream-equal successor states. -/
theorem readToken_sim {st1 st2 : PState} (hR : StreamEq st1 st2) :
    (∃ e1 e2, readToken st1 = .error e1 ∧ readToken st2 = .error e2) ∨
    (∃ t1 st1' t2 st2', readToken st1 = .ok (t1, st1') ∧
      readToken st2 = .ok (t2, st2') ∧ t1.data = t2.data ∧ StreamEq st1' st2') := by
  unfold StreamEq at hR
  rcases h1 : lexRead st1.cr with e1 | ⟨t1, cr1⟩
  · have hs1 := tokStream_error h1
    rcases h2 : lexRead st2.cr with e2 | ⟨t2, cr2⟩
    · exact Or.inl ⟨.lexerError e1, .lexerError e2, by unfold readToken; rw [h1],
        by unfold readToken; rw [h2]⟩
    · by_cases he2 : t2.data = .eof
      · rw [hs1, tokStream_eof h2 he2] at hR
        cases hR
      · rw [hs1, tokStream_tok h2 he2] at hR
        cases hR
  · by_cases he1 : t1.data = .eof
    · have hs1 := tokStream_eof h1 he1
      rcases h2 : lexRead st2.cr with e2 | ⟨t2, cr2⟩
      · rw [hs1, tokStream_error h2] at hR
        cases hR
      · by_cases he2 : t2.data = .eof
        · refine Or.inr ⟨t1, ⟨cr1, t1.line, t1.pos⟩, t2, ⟨cr2, t2.line, t2.pos⟩,
            by unfold readToken; rw [h1], by unfold readToken; rw [h2],
            by rw [he1, he2], ?_⟩
          unfold StreamEq
          dsimp
          rw [tokStream_allSkip (lexReadGo_eof_rest _ _ _ h1 he1),
            tokStream_allSkip (lexReadGo_eof_rest _ _ _ h2 he2)]
        · rw [hs1, tokStream_tok h2 he2] at hR
          cases hR
    · have hs1 := tokStream_tok h1 he1
      rcases h2 : lexRead st2.cr with e2 | ⟨t2, cr2⟩
      · rw [hs1, tokStream_error h2] at hR
        cases hR
      · by_cases he2 : t2.data = .eof
        · rw [hs1, tokStream_eof h2 he2] at hR
          cases hR
        · rw [hs1, tokStream_tok h2 he2] at hR
          obtain ⟨hfst, hsnd⟩ := Prod.ext_iff.mp hR
          injection hfst with hd ht
          refine Or.inr ⟨t1, ⟨cr1, t1.line, t1.pos⟩, t2, ⟨cr2, t2.line, t2.pos⟩,
            by unfold readToken; rw [h1], by unfold readToken; rw [h2], hd, ?_⟩
          unfold StreamEq
          dsimp
          exact Prod.ext ht hsnd

/-- The recursive-descent parser computes the same tree from any two
states with the same token-data stream: parsing depends only on the
token payloads, not on positions or on the characters between
tokens. -/
theorem parse_sim : ∀ (f1 : Nat),
    (∀ (st1 st2 : PState) (f2 : Nat), 2 * st1.cr.input.length + 1 ≤ f1 →
      2 * st2.cr.input.length + 1 ≤ f2 → StreamEq st1 st2 →
      ResSim (parseF f1 st1) (parseF f2 st2)) ∧
    (∀ (st1 st2 : PState) (acc : List (String × Node)) (f2 : Nat),
      2 * st1.cr.input.length + 2 ≤ f1 → 2 * st2.cr.input.length + 2 ≤ f2 →
      StreamEq st1 st2 →
      ResSim (parseObjectF f1 st1 acc) (parseObjectF f2 st2 acc)) ∧
    (∀ (st1 st2 : PState) (acc : List Node) (f2 : Nat),
      2 * st1.cr.input.length + 2 ≤ f1 → 2 * st2.cr.input.length + 2 ≤ f2 →
      StreamEq st1 st2 →
      ResSim (parseArrayF f1 st1 acc) (parseArrayF f2 st2 acc)) := by
  intro f1
  induction f1 with
  | zero =>
    refine ⟨fun st1 st2 f2 hf => ?_, fun st1 st2 acc f2 hf => ?_,
      fun st1 st2 acc f2 hf => ?_⟩ <;> omega
  | succ f1 ih =>
    obtain ⟨ihV, ihO, ihA⟩ := ih
    refine ⟨fun st1 st2 f2 hf1 hf2 hR => ?_, fun st1 st2 acc f2 hf1 hf2 hR => ?_,
      fun st1 st2 acc f2 hf1 hf2 hR => ?_⟩
    · cases f2 with
      | zero => omega
      | succ f2 =>
        rw [parseF_succ, parseF_succ]
        rcases readToken_sim hR with ⟨e1, e2, h1, h2⟩ |
          ⟨t1, st1', t2, st2', h1, h2, hdata, hR'⟩
        · rw [h1, h2]
          trivial
        · rw [h1, h2]
          have hlen1 := readToken_len h1
          have hlen2 := readToken_len h2
          dsimp only
          rcases t1 with ⟨tl1, tp1, td1⟩
          rcases t2 with ⟨tl2, tp2, td2⟩
          dsimp at hdata hlen1 hlen2
          subst hdata
          cases td1 <;> dsimp only
          case string s => exact ⟨rfl, hR'⟩
          case number q => exact ⟨rfl, hR'⟩
          case true => exact ⟨rfl, hR'⟩
          case false => exact ⟨rfl, hR'⟩
          case null => exact ⟨rfl, hR'⟩
          case eof => exact ⟨rfl, hR'⟩
          case colon => trivial
          case comma => trivial
          case leftBracket =>
            have hs1 := hlen1.2 (by simp)
            have hs2 := hlen2.2 (by simp)
            exact ihA st1' st2' [] f2 (by omega) (by omega) hR'
          case rightBracket => trivial
          case leftBrace =>
            have hs1 := hlen1.2 (by simp)
            have hs2 := hlen2.2 (by simp)
            exact ihO st1' st2' [] f2 (by omega) (by omega) hR'
          case rightBrace => trivial
    · cases f2 with
      | zero => omega
      | succ f2 =>
        rw [parseObjectF_succ, parseObjectF_succ]
        rcases readToken_sim hR with ⟨e1, e2, h1, h2⟩ |
          ⟨kt1, st11, kt2, st21, h1, h2, hdata, hR1⟩
        · rw [h1, h2]
          trivial
        · rw [h1, h2]
          have hlen11 := readToken_len h1
          have hlen21 := readToken_len h2
          dsimp only
          rcases kt1 with ⟨a1, b1, kd1⟩
          rcases kt2 with ⟨a2, b2, kd2⟩
          dsimp at hdata hlen11 hlen21
          subst hdata
          cases kd1 <;> dsimp only <;> try trivial
          case string key =>
          have hs11 := hlen11.2 (by simp)
          have hs21 := hlen21.2 (by simp)
          rcases readToken_sim hR1 with ⟨e1, e2, h3, h4⟩ |
            ⟨ct1, st12, ct2, st22, h3, h4, hdata2, hR2⟩
          · rw [h3, h4]
            trivial
          · rw [h3, h4]
            have hlen12 := readToken_len h3
            have hlen22 := readToken_len h4
            dsimp only
            rcases ct1 with ⟨a3, b3, cd1⟩
            rcases ct2 with ⟨a4, b4, cd2⟩
            dsimp at hdata2 hlen12 hlen22
            subst hdata2
            cases cd1 <;> dsimp only <;> try trivial
            case colon =>
            have hs12 := hlen12.2 (by simp)
            have hs22 := hlen22.2 (by simp)
            rcases hv1 : parseF f1 st12 with e1 | ⟨v1, st13⟩ <;>
              rcases hv2 : parseF f2 st22 with e2 | ⟨v2, st23⟩ <;>
              have hsim := ihV st12 st22 f2 (by omega) (by omega) hR2 <;>
              rw [hv1, hv2] at hsim <;> dsimp only
            · trivial
            · exact absurd hsim (by simp [ResSim])
            · exact absurd hsim (by simp [ResSim])
            · obtain ⟨hveq, hR3⟩ := hsim
              subst hveq
              have hl13 := ((parse_len f1).1 _ _ _ hv1).1
              have hl23 := ((parse_len f2).1 _ _ _ hv2).1
              by_cases hvn : isValueNode v1
              · rw [if_pos hvn, if_pos hvn]
                rcases readToken_sim hR3 with ⟨e1, e2, h5, h6⟩ |
                  ⟨sp1, st14, sp2, st24, h5, h6, hdata3, hR4⟩
                · rw [h5, h6]
                  trivial
                · rw [h5, h6]
                  have hlen14 := readToken_len h5
                  have hlen24 := readToken_len h6
                  dsimp only
                  rcases sp1 with ⟨a5, b5, sd1⟩
                  rcases sp2 with ⟨a6, b6, sd2⟩
                  dsimp at hdata3 hlen14 hlen24
                  subst hdata3
                  cases sd1 <;> dsimp only <;> try trivial
                  · -- comma
                    have hs14 := hlen14.2 (by simp)
                    have hs24 := hlen24.2 (by simp)
                    exact ihO st14 st24 (objInsert key v1 acc) f2
                      (by omega) (by omega) hR4
              · rw [if_neg hvn, if_neg hvn]
                trivial
    · cases f2 with
      | zero => omega
      | succ f2 =>
        rw [parseArrayF_succ, parseArrayF_succ]
        rcases hv1 : parseF f1 st1 with e1 | ⟨v1, st11⟩ <;>
          rcases hv2 : parseF f2 st2 with e2 | ⟨v2, st21⟩ <;>
          have hsim := ihV st1 st2 f2 (by omega) (by omega) hR <;>
          rw [hv1, hv2] at hsim <;> dsimp only
        · trivial
        · exact absurd hsim (by simp [ResSim])
        · exact absurd hsim (by simp [ResSim])
        · obtain ⟨hveq, hR1⟩ := hsim
          subst hveq
          by_cases hvn : isValueNode v1
          · rw [if_pos hvn, if_pos hvn]
            have hl11 := ((parse_len f1).1 _ _ _ hv1).2 hvn
            have hl21 := ((parse_len f2).1 _ _ _ hv2).2 hvn
            rcases readToken_sim hR1 with ⟨e1, e2, h3, h4⟩ |
              ⟨sp1, st12, sp2, st22, h3, h4, hdata2, hR2⟩
            · rw [h3, h4]
              trivial
            · rw [h3, h4]
              have hlen12 := readToken_len h3
              have hlen22 := readToken_len h4
              dsimp only
              rcases sp1 with ⟨a3, b3, sd1⟩
              rcases sp2 with ⟨a4, b4, sd2⟩
              dsimp at hdata2 hlen12 hlen22
              subst hdata2
              cases sd1 <;> dsimp only <;> try trivial
              · -- comma
                have hs12 := hlen12.2 (by simp)
                have hs22 := hlen22.2 (by simp)
                exact ihA st12 st22 (acc ++ [v1]) f2 (by omega) (by omega) hR2
          · rw [if_neg hvn, if_neg hvn]
            trivial

/-! ## Serializer correctness: digits and integers -/

theorem digitsToNat_nil : digitsToNat [] = 0 := rfl

theorem digitsToNat_append_singleton (l : List Char) (c : Char) :
    digitsToNat (l ++ [c]) = 10 * digitsToNat l + (c.toNat - 48) := by
  simp [digitsToNat, List.foldl_append]

theorem digit_char_isDigit {d : Nat} (h : d < 10) :
    (Char.ofNat (48 + d)).isDigit = Bool.true := by
  interval_cases d <;> decide

theorem digit_char_toNat {d : Nat} (h : d < 10) :
    (Char.ofNat (48 + d)).toNat - 48 = d := by
  interval_cases d <;> decide

theorem isDigit_ne {c x : Char} (h : c.isDigit = Bool.true)
    (hx : x.isDigit = Bool.false) : ¬c = x := by
  intro he
  rw [he, hx] at h
  cases h

theorem natDigits_ne_nil (n : Nat) : ¬natDigits n = [] := by
  unfold natDigits
  by_cases hn : n = 0
  · simp [hn]
  · simp [hn, List.reverse_eq_nil_iff, List.map_eq_nil_iff,
      Nat.digits_eq_nil_iff_eq_zero]

theorem natDigits_isDigit (n : Nat) : ∀ c ∈ natDigits n, c.isDigit = Bool.true := by
  intro c hc
  unfold natDigits at hc
  by_cases hn : n = 0
  · rw [if_pos hn] at hc
    simp only [List.mem_singleton] at hc
    rw [hc]; decide
  · rw [if_neg hn, List.mem_reverse] at hc
    rcases List.mem_map.mp hc with ⟨d, hd, rfl⟩
    exact digit_char_isDigit (Nat.digits_lt_base (by norm_num) hd)

theorem digitsToNat_revMap : ∀ (ds : List Nat), (∀ d ∈ ds, d < 10) →
    digitsToNat ((ds.map (fun d => Char.ofNat (48 + d))).reverse) =
      Nat.ofDigits 10 ds := by
  intro ds
  induction ds with
  | nil => intro _; rfl
  | cons d ds ih =>
    intro h
    rw [List.map_cons, List.reverse_cons, digitsToNat_append_singleton,
      ih (fun x hx => h x (List.mem_cons_of_mem _ hx)),
      digit_char_toNat (h d (List.mem_cons_self _ _)), Nat.ofDigits_cons]
    omega

theorem digitsToNat_natDigits (n : Nat) : digitsToNat (natDigits n) = n := by
  unfold natDigits
  by_cases hn : n = 0
  · rw [if_pos hn, hn]; rfl
  · rw [if_neg hn,
      digitsToNat_revMap _ (fun d hd => Nat.digits_lt_base (by norm_num) hd),
      Nat.ofDigits_digits]

theorem stripSign_cons (c : Char) (t : List Char) :
    stripSign (c :: t) =
      if c = '-' then (Bool.true, t)
      else if c = '+' then (Bool.false, t)
      else (Bool.false, c :: t) := rfl

/-- `str::parse::<f64>` accepts a nonempty pure-digit string and reads
its decimal value. -/
theorem parseF64_digits (s : List Char) (hne : ¬s = [])
    (hall : ∀ c ∈ s, c.isDigit = Bool.true) :
    parseF64 s = some ((digitsToNat s : ℚ)) := by
  rcases s with _ | ⟨c, t⟩
  · exact absurd rfl hne
  have hc := hall c (List.mem_cons_self _ _)
  have hsign : stripSign (c :: t) = (Bool.false, c :: t) := by
    rw [stripSign_cons, if_neg (isDigit_ne hc (by decide)),
      if_neg (isDigit_ne hc (by decide))]
  have htake : (c :: t).takeWhile Char.isDigit = c :: t :=
    List.takeWhile_eq_self_iff.mpr hall
  have hdrop : (c :: t).dropWhile Char.isDigit = [] :=
    List.dropWhile_eq_nil_iff.mpr hall
  unfold parseF64
  rw [hsign]
  dsimp only
  rw [htake, hdrop]
  dsimp only
  rw [if_neg (by simp)]
  unfold parseExpPart
  simp [decValue, digitsToNat_nil, Rat.mkRat_one]

/-- `str::parse::<f64>` accepts a minus sign followed by digits and
negates the decimal value. -/
theorem parseF64_neg_digits (s : List Char) (hne : ¬s = [])
    (hall : ∀ c ∈ s, c.isDigit = Bool.true) :
    parseF64 ('-' :: s) = some (-(digitsToNat s : ℚ)) := by
  have hsign : stripSign ('-' :: s) = (Bool.true, s) := by
    rw [stripSign_cons, if_pos rfl]
  have htake : s.takeWhile Char.isDigit = s :=
    List.takeWhile_eq_self_iff.mpr hall
  have hdrop : s.dropWhile Char.isDigit = [] :=
    List.dropWhile_eq_nil_iff.mpr hall
  unfold parseF64
  rw [hsign]
  dsimp only
  rw [htake, hdrop]
  rcases s with _ | ⟨c, t⟩
  · exact absurd rfl hne
  dsimp only
  rw [if_neg (by simp)]
  unfold parseExpPart
  simp [decValue, digitsToNat_nil, Rat.mkRat_one]

/-- The serialized integer parses back to its exact value. -/
theorem parseF64_serInt (z : ℤ) : parseF64 (serInt z) = some ((z : ℚ)) := by
  unfold serInt
  by_cases hz : z < 0
  · rw [if_pos hz, parseF64_neg_digits _ (natDigits_ne_nil _) (natDigits_isDigit _),
      digitsToNat_natDigits]
    congr 1
    rw [Int.cast_natAbs, abs_of_neg hz]
    push_cast
    ring
  · rw [if_neg hz, parseF64_digits _ (natDigits_ne_nil _) (natDigits_isDigit _),
      digitsToNat_natDigits]
    congr 1
    rw [Int.cast_natAbs, abs_of_nonneg (not_lt.mp hz)]

theorem takeWhile_digits_append (D : List Char)
    (hD : ∀ c ∈ D, c.isDigit = Bool.true) {c0 : Char}
    (hc0 : c0.isDigit = Bool.false) (rest : List Char) :
    (D ++ c0 :: rest).takeWhile Char.isDigit = D ∧
    (D ++ c0 :: rest).dropWhile Char.isDigit = c0 :: rest := by
  induction D with
  | nil => simp [List.takeWhile_cons, List.dropWhile_cons, hc0]
  | cons d D ih =>
    have hd := hD d (List.mem_cons_self _ _)
    have h2 := ih (fun c hc => hD c (List.mem_cons_of_mem _ hc))
    simp [List.takeWhile_cons, List.dropWhile_cons, hd, h2.1, h2.2]

/-- The exponent part `e-k` (sign `-`, digits of `k`) is accepted. -/
theorem parseExpPart_negExp (neg : Bool) (D : List Char) (k : ℕ) :
    parseExpPart neg D [] ('e' :: '-' :: natDigits k) =
      some (decValue neg D [] Bool.true (natDigits k)) := by
  have h1 : parseExpPart neg D [] ('e' :: '-' :: natDigits k) =
      (if (natDigits k).takeWhile Char.isDigit = [] ∨
          ¬(natDigits k).dropWhile Char.isDigit = [] then none
        else some (decValue neg D [] Bool.true
          ((natDigits k).takeWhile Char.isDigit))) := rfl
  rw [h1, List.takeWhile_eq_self_iff.mpr (natDigits_isDigit k),
    List.dropWhile_eq_nil_iff.mpr (natDigits_isDigit k),
    if_neg (by simp [natDigits_ne_nil k])]

/-- A digit run with an `e-k` suffix parses to the scaled value. -/
theorem parseF64_digits_sci (s : List Char) (hne : ¬s = [])
    (hall : ∀ c ∈ s, c.isDigit = Bool.true) (k : ℕ) :
    parseF64 (s ++ 'e' :: '-' :: natDigits k) =
      some (mkRat (digitsToNat s) (10 ^ k)) := by
  rcases s with _ | ⟨c, t⟩
  · exact absurd rfl hne
  have hc := hall c (List.mem_cons_self _ _)
  obtain ⟨htw, hdw⟩ := takeWhile_digits_append (c :: t) hall
    (by decide : ('e' : Char).isDigit = Bool.false) ('-' :: natDigits k)
  rw [List.cons_append] at htw hdw
  unfold parseF64
  rw [List.cons_append, stripSign_cons, if_neg (isDigit_ne hc (by decide)),
    if_neg (isDigit_ne hc (by decide))]
  dsimp only
  rw [htw, hdw]
  show (if c :: t = [] then none
      else parseExpPart Bool.false (c :: t) [] ('e' :: '-' :: natDigits k)) =
    some (mkRat (digitsToNat (c :: t)) (10 ^ k))
  rw [if_neg (by simp)]
  rw [parseExpPart_negExp]
  simp [decValue, digitsToNat_nil, digitsToNat_natDigits]

/-- A minus sign, digit run and `e-k` suffix parse to the negated
scaled value. -/
theorem parseF64_neg_digits_sci (s : List Char) (hne : ¬s = [])
    (hall : ∀ c ∈ s, c.isDigit = Bool.true) (k : ℕ) :
    parseF64 ('-' :: (s ++ 'e' :: '-' :: natDigits k)) =
      some (mkRat (-(digitsToNat s : ℤ)) (10 ^ k)) := by
  obtain ⟨htw, hdw⟩ := takeWhile_digits_append s hall
    (by decide : ('e' : Char).isDigit = Bool.false) ('-' :: natDigits k)
  unfold parseF64
  rw [stripSign_cons, if_pos rfl]
  dsimp only
  rw [htw, hdw]
  rcases s with _ | ⟨c, t⟩
  · exact absurd rfl hne
  show (if c :: t = [] then none
      else parseExpPart Bool.true (c :: t) [] ('e' :: '-' :: natDigits k)) =
    some (mkRat (-(digitsToNat (c :: t) : ℤ)) (10 ^ k))
  rw [if_neg (by simp)]
  rw [parseExpPart_negExp]
  simp [decValue, digitsToNat_nil, digitsToNat_natDigits]

/-- The scaled-mantissa representation used by `serNum` denotes `q`
whenever the denominator divides the chosen power of ten. -/
theorem mkRat_scale (q : ℚ) (hden : q.den ∣ 10 ^ q.den) :
    mkRat (q.num * ((10 ^ q.den / q.den : ℕ) : ℤ)) (10 ^ q.den) = q := by
  have hdpos : 0 < q.den := q.den_pos
  have hspos : 0 < 10 ^ q.den / q.den :=
    Nat.div_pos (Nat.le_of_dvd (by positivity) hden) hdpos
  have hs : q.den * (10 ^ q.den / q.den) = 10 ^ q.den := Nat.mul_div_cancel' hden
  set s : ℕ := 10 ^ q.den / q.den with hsdef
  have hs0 : (s : ℚ) ≠ 0 := by exact_mod_cast hspos.ne'
  rw [Rat.mkRat_eq_div]
  rw [show ((10 ^ q.den : ℕ) : ℚ) = (q.den : ℚ) * (s : ℚ) from by
    rw [← hs]; push_cast; ring]
  rw [show ((q.num * (s : ℤ) : ℤ) : ℚ) = (q.num : ℚ) * (s : ℚ) from by
    push_cast; ring]
  rw [mul_div_mul_right _ _ hs0]
  exact Rat.num_div_den q

/-- The serialized number literal parses back to its exact value. -/
theorem parseF64_serNum (q : ℚ) (hden : q.den ∣ 10 ^ q.den) :
    parseF64 (serNum q) = some q := by
  unfold serNum serInt
  by_cases hneg : q.num * ((10 ^ q.den / q.den : ℕ) : ℤ) < 0
  · rw [if_pos hneg, List.cons_append,
      parseF64_neg_digits_sci _ (natDigits_ne_nil _) (natDigits_isDigit _),
      digitsToNat_natDigits]
    rw [show -(((q.num * ((10 ^ q.den / q.den : ℕ) : ℤ)).natAbs : ℤ))
        = q.num * ((10 ^ q.den / q.den : ℕ) : ℤ) from by
      rw [Int.ofNat_natAbs_of_nonpos (le_of_lt hneg)]; ring]
    rw [mkRat_scale q hden]
  · rw [if_neg hneg,
      parseF64_digits_sci _ (natDigits_ne_nil _) (natDigits_isDigit _),
      digitsToNat_natDigits]
    rw [show (((q.num * ((10 ^ q.den / q.den : ℕ) : ℤ)).natAbs : ℤ))
        = q.num * ((10 ^ q.den / q.den : ℕ) : ℤ) from
      Int.natAbs_of_nonneg (not_lt.mp hneg)]
    rw [mkRat_scale q hden]

/-! ## Serialized tokens under the lexer -/

theorem numChar_of_isDigit {c : Char} (h : c.isDigit = Bool.true) :
    numChar c = Bool.true := by
  simp [numChar, h]

/-- The shape of a serialized integer: a sign-or-digit head and a pure
number-character tail. -/
theorem serInt_shape (z : ℤ) : ∃ c tail, serInt z = c :: tail ∧
    (c = '-' ∨ c.isDigit = Bool.true) ∧ ∀ x ∈ tail, numChar x = Bool.true := by
  unfold serInt
  by_cases hz : z < 0
  · rw [if_pos hz]
    exact ⟨'-', natDigits z.natAbs, rfl, Or.inl rfl,
      fun x hx => numChar_of_isDigit (natDigits_isDigit _ x hx)⟩
  · rw [if_neg hz]
    rcases hnd : natDigits z.natAbs with _ | ⟨c, tail⟩
    · exact absurd hnd (natDigits_ne_nil _)
    refine ⟨c, tail, rfl, Or.inr ?_, fun x hx => numChar_of_isDigit ?_⟩
    · exact natDigits_isDigit _ c (by rw [hnd]; exact List.mem_cons_self _ _)
    · exact natDigits_isDigit _ x (by rw [hnd]; exact List.mem_cons_of_mem _ hx)

/-- Lexing a serialized integer at a number boundary: one number token
carrying its exact value. -/
theorem lexReadGo_serInt (z : ℤ) (rest : List Char)
    (hrest : numBoundary rest = Bool.true) (l p : Nat) :
    lexReadGo (serInt z ++ rest) l p =
      .ok (⟨(l, l), (p + 1, p + (serInt z).length), .number ((z : ℚ))⟩,
           ⟨rest, l, p + (serInt z).length⟩) := by
  obtain ⟨c, tail, hser, hfirst, htail⟩ := serInt_shape z
  have hp : parseF64 (c :: tail) = some ((z : ℚ)) := by
    rw [← hser]; exact parseF64_serInt z
  rw [hser]
  exact lexReadGo_number_ok hfirst htail hrest hp l p

/-- The shape of a serialized number literal: a sign-or-digit head and
a pure number-character tail (digits, `e`, `-`). -/
theorem serNum_shape (q : ℚ) : ∃ c tail, serNum q = c :: tail ∧
    (c = '-' ∨ c.isDigit = Bool.true) ∧ ∀ x ∈ tail, numChar x = Bool.true := by
  obtain ⟨c, tl, hser, hc, htl⟩ :=
    serInt_shape (q.num * ((10 ^ q.den / q.den : ℕ) : ℤ))
  refine ⟨c, tl ++ 'e' :: '-' :: natDigits q.den, ?_, hc, ?_⟩
  · unfold serNum
    rw [hser, List.cons_append]
  · intro x hx
    rcases List.mem_append.mp hx with h | h
    · exact htl x h
    · rcases List.mem_cons.mp h with rfl | h2
      · decide
      · rcases List.mem_cons.mp h2 with rfl | h3
        · decide
        · exact numChar_of_isDigit (natDigits_isDigit _ x h3)

/-- Lexing a serialized number literal at a number boundary: one number
token carrying its exact value. -/
theorem lexReadGo_serNum (q : ℚ) (hden : q.den ∣ 10 ^ q.den)
    (rest : List Char) (hrest : numBoundary rest = Bool.true) (l p : Nat) :
    lexReadGo (serNum q ++ rest) l p =
      .ok (⟨(l, l), (p + 1, p + (serNum q).length), .number q⟩,
           ⟨rest, l, p + (serNum q).length⟩) := by
  obtain ⟨c, tail, hser, hfirst, htail⟩ := serNum_shape q
  have hp : parseF64 (c :: tail) = some q := by
    rw [← hser]; exact parseF64_serNum q hden
  rw [hser]
  exact lexReadGo_number_ok hfirst htail hrest hp l p

/-- The escape-everything body is a well-formed string body. -/
theorem serBody_bodyOk : ∀ (l : List Char),
    bodyOk (l.flatMap (fun c => ['\\', c])) = Bool.true
  | [] => rfl
  | c :: cs => by
    rw [List.flatMap_cons, List.cons_append, List.cons_append, List.nil_append,
      bodyOk_escape]
    exact serBody_bodyOk cs

/-- Unescaping the escape-everything body restores the original
characters. -/
theorem serBody_stripEsc : ∀ (l : List Char),
    stripEsc (l.flatMap (fun c => ['\\', c])) = l
  | [] => rfl
  | c :: cs => by
    rw [List.flatMap_cons, List.cons_append, List.cons_append, List.nil_append,
      stripEsc_escape, serBody_stripEsc cs]

theorem serString_shape (s : String) (rest : List Char) :
    serString s ++ rest =
      '"' :: ((s.data.flatMap (fun c => ['\\', c])) ++ '"' :: rest) := by
  simp [serString]

/-- Lexing a serialized string literal: one string token carrying the
original text. -/
theorem lexReadGo_serString (s : String) (rest : List Char) (l p : Nat) :
    ∃ lp1 lp2 l2 p2, lexReadGo (serString s ++ rest) l p =
      .ok (⟨lp1, lp2, .string s⟩, ⟨rest, l2, p2⟩) := by
  rw [serString_shape, lexReadGo_stringEnter,
    parseStringLoop_closed _ (serBody_bodyOk s.data), serBody_stripEsc]
  exact ⟨_, _, _, _, by rw [List.nil_append]⟩

/-- `read_token` through the lexer entry point. -/
theorem readToken_eq (st : PState) : readToken st =
    match lexReadGo st.cr.input st.cr.line st.cr.pos with
    | .error e => .error (.lexerError e)
    | .ok (t, cr') => .ok (t, ⟨cr', t.line, t.pos⟩) := by
  unfold readToken
  rw [lexRead_eq]

/-! ## Well-formed trees: basic facts -/

theorem WF_isValueNode {t : Node} (h : WF t) : isValueNode t = Bool.true := by
  cases h <;> rfl

theorem serNode_ne_nil {t : Node} (h : WF t) : ¬serNode t = [] := by
  cases h with
  | @number q hden =>
    rcases serNum_shape q with ⟨c, tail, hser, _, _⟩
    simp [serNode, hser]
  | string s => simp [serNode, serString]
  | _ => simp [serNode]

/-! ## Sorted keys and insertion -/

theorem keysSorted_cons_cons (a b : String × Node) (l : List (String × Node)) :
    keysSorted (a :: b :: l) = (decide (a.1 < b.1) && keysSorted (b :: l)) := by
  rcases a with ⟨k, v⟩
  rcases b with ⟨k', v'⟩
  rfl

/-- In a sorted entry list split around an entry, every key before it is
strictly smaller. -/
theorem keysSorted_append_lt : ∀ (acc : List (String × Node)) (k : String)
    (v : Node) (xs : List (String × Node)),
    keysSorted (acc ++ (k, v) :: xs) = Bool.true →
    (∀ kv ∈ acc, kv.1 < k) ∧ keysSorted ((k, v) :: xs) = Bool.true := by
  intro acc
  induction acc with
  | nil => exact fun k v xs h => ⟨by simp, h⟩
  | cons a acc ih =>
    intro k v xs h
    rw [List.cons_append] at h
    cases acc with
    | nil =>
      rw [List.nil_append, keysSorted_cons_cons] at h
      obtain ⟨h1, h2⟩ := Bool.and_eq_true_iff.mp h
      refine ⟨fun kv hkv => ?_, h2⟩
      rw [List.mem_singleton] at hkv
      rw [hkv]
      exact of_decide_eq_true h1
    | cons b acc' =>
      rw [List.cons_append, keysSorted_cons_cons] at h
      obtain ⟨h1, h2⟩ := Bool.and_eq_true_iff.mp h
      obtain ⟨hall, hlast⟩ := ih k v xs (by rw [List.cons_append]; exact h2)
      refine ⟨fun kv hkv => ?_, hlast⟩
      rcases List.mem_cons.mp hkv with rfl | hkv'
      · exact lt_trans (of_decide_eq_true h1) (hall b (List.mem_cons_self _ _))
      · exact hall kv hkv'

theorem objInsert_cons (k : String) (v : Node) (k' : String) (v' : Node)
    (rest : List (String × Node)) :
    objInsert k v ((k', v') :: rest) =
      if k < k' then (k, v) :: (k', v') :: rest
      else if k = k' then (k, v) :: rest
      else (k', v') :: objInsert k v rest := rfl

/-- Inserting a key strictly above every key present appends the entry
at the end. -/
theorem objInsert_append : ∀ (acc : List (String × Node)) (k : String) (v : Node),
    (∀ kv ∈ acc, kv.1 < k) → objInsert k v acc = acc ++ [(k, v)] := by
  intro acc
  induction acc with
  | nil => intro k v _; rfl
  | cons a acc ih =>
    intro k v h
    rcases a with ⟨k', v'⟩
    have hk : k' < k := h (k', v') (List.mem_cons_self _ _)
    rw [objInsert_cons, if_neg (fun hlt => (lt_asymm hlt) hk),
      if_neg (by intro he; rw [he] at hk; exact lt_irrefl _ hk),
      ih k v (fun kv hkv => h kv (List.mem_cons_of_mem _ hkv)),
      List.cons_append]

/-! ## The structural round trip -/

theorem numBoundary_tailElems (xs : List Node) (rest : List Char) :
    numBoundary (serTailElems xs ++ ']' :: rest) = Bool.true := by
  cases xs <;> rfl

theorem numBoundary_tailEntries (xs : List (String × Node)) (rest : List Char) :
    numBoundary (serTailEntries xs ++ '}' :: rest) = Bool.true := by
  cases xs with
  | nil => rfl
  | cons a xs => rcases a with ⟨k, v⟩; rfl

/-- The round-trip property of a single tree: parsing its serialization
followed by any number-boundary text yields the tree back exactly, at
any sufficient fuel and from any starting positions. -/
def SerOk (t : Node) : Prop :=
  ∀ (rest : List Char), numBoundary rest = Bool.true →
  ∀ (fuel l p : Nat) (lr pr : Nat × Nat),
    2 * (serNode t ++ rest).length + 1 ≤ fuel →
    ∃ l2 p2 lr2 pr2,
      parseF fuel ⟨⟨serNode t ++ rest, l, p⟩, lr, pr⟩ =
        .ok (t, ⟨⟨rest, l2, p2⟩, lr2, pr2⟩)

/-- The array loop consumes serialized elements and the closing bracket,
appending the elements in order. -/
theorem ser_array_loop : ∀ (xs : List Node) (x : Node) (acc : List Node),
    (∀ y ∈ x :: xs, WF y) → (∀ y ∈ x :: xs, SerOk y) →
    ∀ (rest : List Char) (fuel l p : Nat) (lr pr : Nat × Nat),
    2 * (serNode x ++ (serTailElems xs ++ ']' :: rest)).length + 2 ≤ fuel →
    ∃ l2 p2 lr2 pr2,
      parseArrayF fuel
          ⟨⟨serNode x ++ (serTailElems xs ++ ']' :: rest), l, p⟩, lr, pr⟩ acc =
        .ok (.array (acc ++ x :: xs), ⟨⟨rest, l2, p2⟩, lr2, pr2⟩) := by
  intro xs
  induction xs with
  | nil =>
    intro x acc hwf hser rest fuel l p lr pr hfuel
    cases fuel with
    | zero => exact absurd hfuel (by omega)
    | succ f =>
      rw [show serTailElems [] = [] from rfl, List.nil_append] at hfuel ⊢
      obtain ⟨l2, p2, lr2, pr2, hpv⟩ :=
        hser x (List.mem_cons_self _ _) (']' :: rest) rfl f l p lr pr (by omega)
      have hval := WF_isValueNode (hwf x (List.mem_cons_self _ _))
      have hstep : parseArrayF (f + 1)
          ⟨⟨serNode x ++ ']' :: rest, l, p⟩, lr, pr⟩ acc =
          .ok (.array (acc ++ [x]),
            ⟨⟨rest, l2, p2 + 1⟩, (l2, l2), (p2 + 1, p2 + 1)⟩) := by
        rw [parseArrayF_succ, hpv]
        dsimp only
        rw [if_pos hval, readToken_eq]
        dsimp only
        rw [lexReadGo_rightBracket]
      exact ⟨l2, p2 + 1, _, _, hstep⟩
  | cons x2 xs ih =>
    intro x acc hwf hser rest fuel l p lr pr hfuel
    cases fuel with
    | zero => exact absurd hfuel (by omega)
    | succ f =>
      have htail : serTailElems (x2 :: xs) ++ ']' :: rest
          = ',' :: (serNode x2 ++ (serTailElems xs ++ ']' :: rest)) := by
        show (',' :: serNode x2 ++ serTailElems xs) ++ ']' :: rest = _
        simp [List.append_assoc]
      obtain ⟨l2, p2, lr2, pr2, hpv⟩ :=
        hser x (List.mem_cons_self _ _) (serTailElems (x2 :: xs) ++ ']' :: rest)
          (numBoundary_tailElems _ _) f l p lr pr (by omega)
      have hval := WF_isValueNode (hwf x (List.mem_cons_self _ _))
      have hlen : (serNode x ++ (serTailElems (x2 :: xs) ++ ']' :: rest)).length
          = (serNode x).length +
            (1 + (serNode x2 ++ (serTailElems xs ++ ']' :: rest)).length) := by
        rw [htail]
        simp only [List.length_append, List.length_cons]
        omega
      have hA : 1 ≤ (serNode x).length :=
        List.length_pos.mpr (serNode_ne_nil (hwf x (List.mem_cons_self _ _)))
      obtain ⟨l3, p3, lr3, pr3, hloop⟩ :=
        ih x2 (acc ++ [x])
          (fun y hy => hwf y (List.mem_cons_of_mem _ hy))
          (fun y hy => hser y (List.mem_cons_of_mem _ hy))
          rest f l2 (p2 + 1) (l2, l2) (p2 + 1, p2 + 1) (by omega)
      rw [htail] at hpv
      have hstep : parseArrayF (f + 1)
          ⟨⟨serNode x ++ (',' :: (serNode x2 ++ (serTailElems xs ++ ']' :: rest))),
            l, p⟩, lr, pr⟩ acc =
          .ok (.array (acc ++ x :: x2 :: xs), ⟨⟨rest, l3, p3⟩, lr3, pr3⟩) := by
        rw [parseArrayF_succ, hpv]
        dsimp only
        rw [if_pos hval, readToken_eq]
        dsimp only
        rw [lexReadGo_comma]
        dsimp only
        rw [hloop, List.append_assoc, List.singleton_append]
      rw [htail]
      exact ⟨l3, p3, lr3, pr3, hstep⟩

theorem serString_ne_nil (k : String) : ¬serString k = [] := by
  simp [serString]

/-- The object loop consumes serialized entries and the closing brace;
with keys sorted across the whole run, each insertion appends, so the
entries come back in order. -/
theorem ser_object_loop : ∀ (xs : List (String × Node)) (k : String) (v : Node)
    (acc : List (String × Node)),
    (∀ kv ∈ (k, v) :: xs, WF kv.2) → (∀ kv ∈ (k, v) :: xs, SerOk kv.2) →
    keysSorted (acc ++ (k, v) :: xs) = Bool.true →
    ∀ (rest : List Char) (fuel l p : Nat) (lr pr : Nat × Nat),
    2 * (serString k ++
        (':' :: (serNode v ++ (serTailEntries xs ++ '}' :: rest)))).length + 2 ≤ fuel →
    ∃ l2 p2 lr2 pr2,
      parseObjectF fuel
          ⟨⟨serString k ++ (':' :: (serNode v ++ (serTailEntries xs ++ '}' :: rest))),
            l, p⟩, lr, pr⟩ acc =
        .ok (.object (acc ++ (k, v) :: xs), ⟨⟨rest, l2, p2⟩, lr2, pr2⟩) := by
  intro xs
  induction xs with
  | nil =>
    intro k v acc hwf hser hsorted rest fuel l p lr pr hfuel
    cases fuel with
    | zero => exact absurd hfuel (by omega)
    | succ f =>
      rw [show serTailEntries [] = [] from rfl, List.nil_append] at hfuel ⊢
      obtain ⟨lp1, lp2, l1, p1, hlexk⟩ :=
        lexReadGo_serString k (':' :: (serNode v ++ '}' :: rest)) l p
      have hK : 1 ≤ (serString k).length :=
        List.length_pos.mpr (serString_ne_nil k)
      have hlen : (serString k ++ (':' :: (serNode v ++ '}' :: rest))).length
          = (serString k).length + (1 + (serNode v ++ '}' :: rest).length) := by
        simp only [List.length_append, List.length_cons]
        omega
      have hserv : SerOk v := hser (k, v) (List.mem_cons_self _ _)
      obtain ⟨l2, p2, lr2, pr2, hpv⟩ :=
        hserv ('}' :: rest) rfl f l1 (p1 + 1)
          (l1, l1) (p1 + 1, p1 + 1) (by omega)
      have hval := WF_isValueNode (hwf (k, v) (List.mem_cons_self _ _))
      obtain ⟨hlt, _⟩ := keysSorted_append_lt acc k v [] hsorted
      have hins : objInsert k v acc = acc ++ [(k, v)] := objInsert_append acc k v hlt
      have hstep : parseObjectF (f + 1)
          ⟨⟨serString k ++ (':' :: (serNode v ++ '}' :: rest)), l, p⟩, lr, pr⟩ acc =
          .ok (.object (acc ++ [(k, v)]),
            ⟨⟨rest, l2, p2 + 1⟩, (l2, l2), (p2 + 1, p2 + 1)⟩) := by
        rw [parseObjectF_succ, readToken_eq]
        dsimp only
        rw [hlexk]
        dsimp only
        rw [readToken_eq]
        dsimp only
        rw [lexReadGo_colon]
        dsimp only
        rw [hpv]
        dsimp only
        rw [if_pos hval, readToken_eq]
        dsimp only
        rw [lexReadGo_rightBrace]
        dsimp only
        rw [hins]
      exact ⟨l2, p2 + 1, _, _, hstep⟩
  | cons a xs ih =>
    rcases a with ⟨k2, v2⟩
    intro k v acc hwf hser hsorted rest fuel l p lr pr hfuel
    cases fuel with
    | zero => exact absurd hfuel (by omega)
    | succ f =>
      have htail : serTailEntries ((k2, v2) :: xs) ++ '}' :: rest
          = ',' :: (serString k2 ++
              (':' :: (serNode v2 ++ (serTailEntries xs ++ '}' :: rest)))) := by
        show (',' :: serString k2 ++ ':' :: serNode v2 ++ serTailEntries xs)
            ++ '}' :: rest = _
        simp [List.append_assoc]
      rw [htail] at hfuel ⊢
      obtain ⟨lp1, lp2, l1, p1, hlexk⟩ :=
        lexReadGo_serString k
          (':' :: (serNode v ++
            (',' :: (serString k2 ++
              (':' :: (serNode v2 ++ (serTailEntries xs ++ '}' :: rest))))))) l p
      have hK : 1 ≤ (serString k).length :=
        List.length_pos.mpr (serString_ne_nil k)
      have hV : 1 ≤ (serNode v).length :=
        List.length_pos.mpr (serNode_ne_nil (hwf (k, v) (List.mem_cons_self _ _)))
      have hlen : (serString k ++
          (':' :: (serNode v ++
            (',' :: (serString k2 ++
              (':' :: (serNode v2 ++ (serTailEntries xs ++ '}' :: rest)))))))).length
          = (serString k).length + 1 + (serNode v).length + 1 +
            (serString k2 ++
              (':' :: (serNode v2 ++ (serTailEntries xs ++ '}' :: rest)))).length := by
        simp only [List.length_append, List.length_cons]
        omega
      have hlen2 : (serNode v ++
          (',' :: (serString k2 ++
            (':' :: (serNode v2 ++ (serTailEntries xs ++ '}' :: rest)))))).length
          = (serNode v).length + 1 +
            (serString k2 ++
              (':' :: (serNode v2 ++ (serTailEntries xs ++ '}' :: rest)))).length := by
        simp only [List.length_append, List.length_cons]
        omega
      have hserv : SerOk v := hser (k, v) (List.mem_cons_self _ _)
      obtain ⟨l2, p2, lr2, pr2, hpv⟩ :=
        hserv
          (',' :: (serString k2 ++
            (':' :: (serNode v2 ++ (serTailEntries xs ++ '}' :: rest)))))
          rfl f l1 (p1 + 1) (l1, l1) (p1 + 1, p1 + 1) (by omega)
      have hval := WF_isValueNode (hwf (k, v) (List.mem_cons_self _ _))
      obtain ⟨hlt, _⟩ := keysSorted_append_lt acc k v ((k2, v2) :: xs) hsorted
      have hins : objInsert k v acc = acc ++ [(k, v)] := objInsert_append acc k v hlt
      obtain ⟨l3, p3, lr3, pr3, hloop⟩ :=
        ih k2 v2 (acc ++ [(k, v)])
          (fun y hy => hwf y (List.mem_cons_of_mem _ hy))
          (fun y hy => hser y (List.mem_cons_of_mem _ hy))
          (by rw [List.append_assoc, List.singleton_append]; exact hsorted)
          rest f l2 (p2 + 1) (l2, l2) (p2 + 1, p2 + 1) (by omega)
      have hstep : parseObjectF (f + 1)
          ⟨⟨serString k ++
            (':' :: (serNode v ++
              (',' :: (serString k2 ++
                (':' :: (serNode v2 ++ (serTailEntries xs ++ '}' :: rest))))))),
            l, p⟩, lr, pr⟩ acc =
          .ok (.object (acc ++ (k, v) :: (k2, v2) :: xs),
            ⟨⟨rest, l3, p3⟩, lr3, pr3⟩) := by
        rw [parseObjectF_succ, readToken_eq]
        dsimp only
        rw [hlexk]
        dsimp only
        rw [readToken_eq]
        dsimp only
        rw [lexReadGo_colon]
        dsimp only
        rw [hpv]
        dsimp only
        rw [if_pos hval, readToken_eq]
        dsimp only
        rw [lexReadGo_comma]
        dsimp only
        rw [hins, hloop, List.append_assoc, List.singleton_append]
      exact ⟨l3, p3, lr3, pr3, hstep⟩

/-- Every well-formed tree satisfies the round-trip property. -/
theorem ser_roundtrip : ∀ {t : Node}, WF t → SerOk t := by
  intro t hwf
  induction hwf with
  | string s =>
    intro rest hrest fuel l p lr pr hfuel
    cases fuel with
    | zero => exact absurd hfuel (by omega)
    | succ f =>
      obtain ⟨lp1, lp2, l2, p2, hlex⟩ := lexReadGo_serString s rest l p
      refine ⟨l2, p2, lp1, lp2, ?_⟩
      rw [show serNode (.string s) = serString s from rfl, parseF_succ, readToken_eq]
      dsimp only
      rw [hlex]
  | @number q hden =>
    intro rest hrest fuel l p lr pr hfuel
    cases fuel with
    | zero => exact absurd hfuel (by omega)
    | succ f =>
      refine ⟨l, p + (serNum q).length, (l, l),
        (p + 1, p + (serNum q).length), ?_⟩
      rw [show serNode (.number q) = serNum q from rfl, parseF_succ, readToken_eq]
      dsimp only
      rw [lexReadGo_serNum q hden rest hrest l p]
  | true =>
    intro rest hrest fuel l p lr pr hfuel
    cases fuel with
    | zero => exact absurd hfuel (by omega)
    | succ f =>
      refine ⟨l, p + 4, (l, l), (p + 1, p + 4), ?_⟩
      rw [show serNode .true ++ rest = 't' :: 'r' :: 'u' :: 'e' :: rest from rfl,
        parseF_succ, readToken_eq]
      dsimp only
      rw [lexReadGo_true]
  | false =>
    intro rest hrest fuel l p lr pr hfuel
    cases fuel with
    | zero => exact absurd hfuel (by omega)
    | succ f =>
      refine ⟨l, p + 5, (l, l), (p + 1, p + 5), ?_⟩
      rw [show serNode .false ++ rest = 'f' :: 'a' :: 'l' :: 's' :: 'e' :: rest from rfl,
        parseF_succ, readToken_eq]
      dsimp only
      rw [lexReadGo_false]
  | null =>
    intro rest hrest fuel l p lr pr hfuel
    cases fuel with
    | zero => exact absurd hfuel (by omega)
    | succ f =>
      refine ⟨l, p + 4, (l, l), (p + 1, p + 4), ?_⟩
      rw [show serNode .null ++ rest = 'n' :: 'u' :: 'l' :: 'l' :: rest from rfl,
        parseF_succ, readToken_eq]
      dsimp only
      rw [lexReadGo_null]
  | @array elems hne hall ih =>
    intro rest hrest fuel l p lr pr hfuel
    cases elems with
    | nil => exact absurd rfl hne
    | cons x xs =>
      cases fuel with
      | zero => exact absurd hfuel (by omega)
      | succ f =>
        have hinput : serNode (.array (x :: xs)) ++ rest
            = '[' :: (serNode x ++ (serTailElems xs ++ ']' :: rest)) := by
          show ('[' :: (serElems (x :: xs) ++ [']'])) ++ rest = _
          rw [show serElems (x :: xs) = serNode x ++ serTailElems xs from rfl]
          simp [List.append_assoc]
        rw [hinput] at hfuel ⊢
        have hlc : ('[' :: (serNode x ++ (serTailElems xs ++ ']' :: rest))).length
            = (serNode x ++ (serTailElems xs ++ ']' :: rest)).length + 1 :=
          List.length_cons _ _
        obtain ⟨l2, p2, lr2, pr2, hloop⟩ :=
          ser_array_loop xs x [] hall (fun y hy => ih y hy) rest f l (p + 1)
            (l, l) (p + 1, p + 1) (by omega)
        rw [List.nil_append] at hloop
        refine ⟨l2, p2, lr2, pr2, ?_⟩
        rw [parseF_succ, readToken_eq]
        dsimp only
        rw [lexReadGo_leftBracket]
        dsimp only
        exact hloop
  | @object entries hne hks hall ih =>
    intro rest hrest fuel l p lr pr hfuel
    cases entries with
    | nil => exact absurd rfl hne
    | cons a xs =>
      rcases a with ⟨k, v⟩
      cases fuel with
      | zero => exact absurd hfuel (by omega)
      | succ f =>
        have hinput : serNode (.object ((k, v) :: xs)) ++ rest
            = '{' :: (serString k ++
                (':' :: (serNode v ++ (serTailEntries xs ++ '}' :: rest)))) := by
          show ('{' :: (serEntries ((k, v) :: xs) ++ ['}'])) ++ rest = _
          rw [show serEntries ((k, v) :: xs)
              = serString k ++ ':' :: serNode v ++ serTailEntries xs from rfl]
          simp [List.append_assoc]
        rw [hinput] at hfuel ⊢
        have hlc : ('{' :: (serString k ++
            (':' :: (serNode v ++ (serTailEntries xs ++ '}' :: rest))))).length
            = (serString k ++
              (':' :: (serNode v ++ (serTailEntries xs ++ '}' :: rest)))).length + 1 :=
          List.length_cons _ _
        obtain ⟨l2, p2, lr2, pr2, hloop⟩ :=
          ser_object_loop xs k v [] hall (fun y hy => ih y hy)
            (by rw [List.nil_append]; exact hks) rest f l (p + 1)
            (l, l) (p + 1, p + 1) (by omega)
        rw [List.nil_append] at hloop
        refine ⟨l2, p2, lr2, pr2, ?_⟩
        rw [parseF_succ, readToken_eq]
        dsimp only
        rw [lexReadGo_leftBrace]
        dsimp only
        exact hloop

/-- Parsing the serialization of a well-formed tree from a fresh parser
returns exactly that tree and consumes the whole input. -/
theorem parse_serNode {t : Node} (h : WF t) :
    ∃ l p lr pr, Parser.parse (mkParser (serNode t)) =
      .ok (t, ⟨⟨[], l, p⟩, lr, pr⟩) := by
  obtain ⟨l2, p2, lr2, pr2, hp⟩ :=
    ser_roundtrip h [] rfl (2 * (serNode t ++ []).length + 3) 1 0 (1, 1) (1, 1)
      (by omega)
  refine ⟨l2, p2, lr2, pr2, ?_⟩
  rw [show mkParser (serNode t) = ⟨⟨serNode t ++ [], 1, 0⟩, (1, 1), (1, 1)⟩ from
    by rw [List.append_nil]; rfl]
  unfold Parser.parse
  dsimp only
  exact hp

/-! ## Sorted keys: characterization and preservation -/

instance : IsTrans (String × Node) (fun a b => a.1 < b.1) :=
  ⟨fun _ _ _ h1 h2 => lt_trans h1 h2⟩

theorem keysSorted_iff_chain : ∀ (l : List (String × Node)),
    keysSorted l = Bool.true ↔ List.Chain' (fun a b : String × Node => a.1 < b.1) l
  | [] => by simp [keysSorted]
  | [a] => by simp [keysSorted]
  | a :: b :: l => by
    rw [keysSorted_cons_cons, Bool.and_eq_true_iff, decide_eq_true_eq,
      List.chain'_cons]
    exact and_congr Iff.rfl (keysSorted_iff_chain (b :: l))

theorem keysSorted_iff_pairwise (l : List (String × Node)) :
    keysSorted l = Bool.true ↔
      List.Pairwise (fun a b : String × Node => a.1 < b.1) l := by
  rw [keysSorted_iff_chain, List.chain'_iff_pairwise]

theorem keysSorted_head_gt {k' : String} {v' : Node} {rest : List (String × Node)}
    (h : keysSorted ((k', v') :: rest) = Bool.true) : ∀ kv ∈ rest, k' < kv.1 := by
  rw [keysSorted_iff_pairwise, List.pairwise_cons] at h
  exact h.1

theorem keysSorted_tail {a : String × Node} {rest : List (String × Node)}
    (h : keysSorted (a :: rest) = Bool.true) : keysSorted rest = Bool.true := by
  rw [keysSorted_iff_pairwise, List.pairwise_cons] at h
  rw [keysSorted_iff_pairwise]
  exact h.2

/-- Membership after an insertion. -/
theorem mem_objInsert : ∀ (acc : List (String × Node)) {kv : String × Node}
    (k : String) (v : Node), kv ∈ objInsert k v acc → kv = (k, v) ∨ kv ∈ acc := by
  intro acc
  induction acc with
  | nil =>
    intro kv k v h
    simp only [objInsert, List.mem_singleton] at h
    exact Or.inl h
  | cons a acc ih =>
    intro kv k v h
    rcases a with ⟨k', v'⟩
    rw [objInsert_cons] at h
    by_cases h1 : k < k'
    · rw [if_pos h1] at h
      rcases List.mem_cons.mp h with rfl | h2
      · exact Or.inl rfl
      · exact Or.inr h2
    · rw [if_neg h1] at h
      by_cases h2 : k = k'
      · rw [if_pos h2] at h
        rcases List.mem_cons.mp h with rfl | h3
        · exact Or.inl rfl
        · exact Or.inr (List.mem_cons_of_mem _ h3)
      · rw [if_neg h2] at h
        rcases List.mem_cons.mp h with rfl | h3
        · exact Or.inr (List.mem_cons_self _ _)
        · rcases ih k v h3 with h4 | h4
          · exact Or.inl h4
          · exact Or.inr (List.mem_cons_of_mem _ h4)

/-- `objInsert` preserves strict key ordering. -/
theorem pairwise_objInsert : ∀ (acc : List (String × Node)) (k : String) (v : Node),
    List.Pairwise (fun a b : String × Node => a.1 < b.1) acc →
    List.Pairwise (fun a b : String × Node => a.1 < b.1) (objInsert k v acc) := by
  intro acc
  induction acc with
  | nil => intro k v _; simp [objInsert]
  | cons a acc ih =>
    intro k v hp
    rcases a with ⟨k', v'⟩
    rw [List.pairwise_cons] at hp
    obtain ⟨h1, h2⟩ := hp
    rw [objInsert_cons]
    by_cases hlt : k < k'
    · rw [if_pos hlt]
      refine List.Pairwise.cons ?_ (List.Pairwise.cons h1 h2)
      intro b hb
      rcases List.mem_cons.mp hb with rfl | hb2
      · exact hlt
      · exact lt_trans hlt (h1 b hb2)
    · rw [if_neg hlt]
      by_cases heq : k = k'
      · rw [if_pos heq]
        refine List.Pairwise.cons ?_ h2
        intro b hb
        rw [heq]
        exact h1 b hb
      · rw [if_neg heq]
        have hk : k' < k := lt_of_le_of_ne (not_lt.mp hlt) (fun he => heq he.symm)
        refine List.Pairwise.cons ?_ (ih k v h2)
        intro b hb
        rcases mem_objInsert acc k v hb with rfl | hb2
        · exact hk
        · exact h1 b hb2

theorem keysSorted_objInsert {acc : List (String × Node)} (k : String) (v : Node)
    (h : keysSorted acc = Bool.true) :
    keysSorted (objInsert k v acc) = Bool.true := by
  rw [keysSorted_iff_pairwise] at h ⊢
  exact pairwise_objInsert acc k v h

/-- Inserting a key into a sorted entry list leaves exactly one entry
under that key, holding the inserted (last-written) value. -/
theorem objInsert_filter : ∀ (acc : List (String × Node)) (k : String) (v : Node),
    keysSorted acc = Bool.true →
    (objInsert k v acc).filter (fun kv => kv.1 == k) = [(k, v)] := by
  intro acc
  induction acc with
  | nil =>
    intro k v _
    simp [objInsert, List.filter]
  | cons a acc ih =>
    intro k v hs
    rcases a with ⟨k', v'⟩
    rw [objInsert_cons]
    by_cases hlt : k < k'
    · rw [if_pos hlt]
      rw [List.filter_cons, if_pos (by simp)]
      have hnil : ((k', v') :: acc).filter (fun kv => kv.1 == k) = [] := by
        rw [List.filter_eq_nil_iff]
        intro kv hkv
        have hgt : k < kv.1 := by
          rcases List.mem_cons.mp hkv with rfl | h2
          · exact hlt
          · exact lt_trans hlt (keysSorted_head_gt hs kv h2)
        simp [ne_of_gt hgt]
      rw [hnil]
    · rw [if_neg hlt]
      by_cases heq : k = k'
      · rw [if_pos heq]
        rw [List.filter_cons, if_pos (by simp)]
        have hnil : acc.filter (fun kv => kv.1 == k) = [] := by
          rw [List.filter_eq_nil_iff]
          intro kv hkv
          have hgt : k < kv.1 := by
            rw [heq]
            exact keysSorted_head_gt hs kv hkv
          simp [ne_of_gt hgt]
        rw [hnil]
      · rw [if_neg heq]
        have hk : k' < k := lt_of_le_of_ne (not_lt.mp hlt) (fun he => heq he.symm)
        rw [List.filter_cons, if_neg (by simp [ne_of_lt hk])]
        exact ih k v (keysSorted_tail hs)

/-- Every tree the fueled parser returns has sorted objects throughout,
provided the accumulators do. -/
theorem parse_sorted : ∀ (fuel : Nat),
    (∀ (st : PState) (n : Node) (st' : PState), parseF fuel st = .ok (n, st') →
      Sorted n) ∧
    (∀ (st : PState) (acc : List (String × Node)) (n : Node) (st' : PState),
      keysSorted acc = Bool.true → (∀ kv ∈ acc, Sorted kv.2) →
      parseObjectF fuel st acc = .ok (n, st') → Sorted n) ∧
    (∀ (st : PState) (acc : List Node) (n : Node) (st' : PState),
      (∀ x ∈ acc, Sorted x) →
      parseArrayF fuel st acc = .ok (n, st') → Sorted n) := by
  intro fuel
  induction fuel with
  | zero =>
    refine ⟨fun st n st' h => ?_, fun st acc n st' h1 h2 h => ?_,
      fun st acc n st' h1 h => ?_⟩ <;>
      exact absurd h (by simp [parseF_zero, parseObjectF_zero, parseArrayF_zero,
        fuelError])
  | succ fuel ih =>
    obtain ⟨ihV, ihO, ihA⟩ := ih
    refine ⟨fun st n st' h => ?_, fun st acc n st' hks hacc h => ?_,
      fun st acc n st' hacc h => ?_⟩
    · rw [parseF_succ] at h
      rcases hrt : readToken st with e | ⟨t, st1⟩
      all_goals rw [hrt] at h
      · cases h
      · rcases t with ⟨tl, tp, td⟩
        cases td <;> dsimp at h
        case string s => cases h; exact Sorted.string s
        case number q => cases h; exact Sorted.number q
        case true => cases h; exact Sorted.true
        case false => cases h; exact Sorted.false
        case null => cases h; exact Sorted.null
        case eof => cases h; exact Sorted.eof
        case leftBrace => exact ihO st1 [] n st' rfl (by simp) h
        case leftBracket => exact ihA st1 [] n st' (by simp) h
        case colon => cases h
        case comma => cases h
        case rightBracket => cases h
        case rightBrace => cases h
    · rw [parseObjectF_succ] at h
      rcases hrt : readToken st with e | ⟨kt, st1⟩
      all_goals rw [hrt] at h
      · cases h
      · rcases kt with ⟨ktl, ktp, ktd⟩
        cases ktd <;> dsimp at h <;> try cases h
        case string key =>
        rcases hrt2 : readToken st1 with e | ⟨ct, st2⟩
        all_goals rw [hrt2] at h
        · cases h
        · rcases ct with ⟨ctl, ctp, ctd⟩
          cases ctd <;> dsimp at h <;> try cases h
          case colon =>
          rcases hpv : parseF fuel st2 with e | ⟨v, st3⟩
          all_goals rw [hpv] at h
          · cases h
          · dsimp only at h
            have hsv : Sorted v := ihV st2 v st3 hpv
            by_cases hv : isValueNode v
            · rw [if_pos hv] at h
              rcases hrt4 : readToken st3 with e | ⟨sep, st4⟩
              all_goals rw [hrt4] at h
              · cases h
              · rcases sep with ⟨sl, sp, sd⟩
                cases sd <;> dsimp at h <;> try cases h
                · exact ihO st4 (objInsert key v acc) n st'
                    (keysSorted_objInsert key v hks)
                    (fun kv hkv => by
                      rcases mem_objInsert acc key v hkv with rfl | h2
                      · exact hsv
                      · exact hacc kv h2) h
                · exact Sorted.object (keysSorted_objInsert key v hks)
                    (fun kv hkv => by
                      rcases mem_objInsert acc key v hkv with rfl | h2
                      · exact hsv
                      · exact hacc kv h2)
            · rw [if_neg hv] at h
              cases h
    · rw [parseArrayF_succ] at h
      rcases hpv : parseF fuel st with e | ⟨v, st1⟩
      all_goals rw [hpv] at h
      · cases h
      · dsimp only at h
        have hsv : Sorted v := ihV st v st1 hpv
        by_cases hv : isValueNode v
        · rw [if_pos hv] at h
          rcases hrt2 : readToken st1 with e | ⟨sep, st2⟩
          all_goals rw [hrt2] at h
          · cases h
          · rcases sep with ⟨sl, sp, sd⟩
            cases sd <;> dsimp at h <;> try cases h
            · exact ihA st2 (acc ++ [v]) n st'
                (fun x hx => by
                  rcases List.mem_append.mp hx with h2 | h2
                  · exact hacc x h2
                  · rw [List.mem_singleton.mp h2]; exact hsv) h
            · exact Sorted.array
                (fun x hx => by
                  rcases List.mem_append.mp hx with h2 | h2
                  · exact hacc x h2
                  · rw [List.mem_singleton.mp h2]; exact hsv)
        · rw [if_neg hv] at h
          cases h

/-! ## The claims -/

/-- C1: for every well-formed JSON document — modelled as the
serialization of a well-formed reference tree: no `EOF` sentinel
inside, scalar numbers any value a decimal literal (integer, fractional
or exponent form) can denote, nonempty containers, sorted object
keys — `Parser::parse` returns `Ok` of exactly that reference tree:
the same object key sets, the same array lengths and element order,
and the same scalar values; the whole document is consumed. -/
theorem claim_C1 (t : Node) (h : WF t) :
    ∃ l p lr pr, Parser.parse (mkParser (serNode t)) =
      .ok (t, ⟨⟨[], l, p⟩, lr, pr⟩) :=
  parse_serNode h

theorem claim_C1_witness :
    WF (.array [.number 3, .number (mkRat 157 50), .true]) ∧
    (∃ l p lr pr,
      Parser.parse (mkParser (serNode
          (.array [.number 3, .number (mkRat 157 50), .true]))) =
        .ok (.array [.number 3, .number (mkRat 157 50), .true],
          ⟨⟨[], l, p⟩, lr, pr⟩)) := by
  have hwf : WF (.array [.number 3, .number (mkRat 157 50), .true]) := by
    refine WF.array (by simp) ?_
    intro x hx
    rcases List.mem_cons.mp hx with rfl | hx2
    · exact WF.number (by decide)
    · rcases List.mem_cons.mp hx2 with rfl | hx3
      · exact WF.number (by decide)
      · rw [List.mem_singleton.mp hx3]
        exact WF.true
  exact ⟨hwf, claim_C1 _ hwf⟩

/-- C2: duplicate keys resolve last-write-wins — inserting a key into a
sorted object accumulator leaves exactly one entry under that key,
holding the newly written value (so an object in which a key occurs
more than once keeps the key once, with the value of its last
occurrence) — and in particular `{"a":1,"a":2}` parses successfully to
the object with the single key `"a"` mapped to the number `2`, not to a
parse error. -/
theorem claim_C2 :
    (∀ (acc : List (String × Node)) (k : String) (v : Node),
      keysSorted acc = Bool.true →
      (objInsert k v acc).filter (fun kv => kv.1 == k) = [(k, v)]) ∧
    Parser.parse (mkParser ['{', '"', 'a', '"', ':', '1', ',',
        '"', 'a', '"', ':', '2', '}']) =
      .ok (.object [("a", .number 2)], ⟨⟨[], 1, 13⟩, (1, 1), (13, 13)⟩) := by
  refine ⟨objInsert_filter, ?_⟩
  simp [Parser.parse, parseF, parseObjectF, parseArrayF, readToken, lexRead,
    lexReadGo, parseString, parseStringLoop, parseNumber, parseNumberLoop,
    numFinish, parseF64, parseStatic, staticCheck, parseDelimiter, mkParser,
    numChar, nextLP, objInsert, isValueNode, decValue, digitsToNat,
    parseExpPart, stripSign, tokenStart, CharReader.read, CharReader.consume,
    Rat.mkRat_one]

theorem claim_C2_witness :
    keysSorted [("b", Node.null)] = Bool.true ∧
    (objInsert "a" Node.true [("b", Node.null)]).filter (fun kv => kv.1 == "a") =
      [("a", Node.true)] :=
  ⟨rfl, claim_C2.1 [("b", Node.null)] "a" Node.true rfl⟩

/-- C3: when only whitespace (or nothing) remains in the stream, a
`parse` call returns `Ok` of the `EOF` sentinel and leaves an
empty-input state on which every further `parse` call returns the
sentinel again — never an error. -/
theorem claim_C3 (st : PState) (h : ∀ c ∈ st.cr.input, wsChar c = Bool.true) :
    ∃ st', Parser.parse st = .ok (.eof, st') ∧ st'.cr.input = [] ∧
      Parser.parse st' = .ok (.eof, st') := by
  have hts : ∀ c ∈ st.cr.input, tokenStart c = false :=
    fun c hc => wsChar_not_tokenStart (h c hc)
  exact ⟨_, parse_allSkip st hts, rfl, parse_empty_fixpoint _ _⟩

theorem claim_C3_witness :
    (∀ c ∈ (mkParser [' ', '\n', '\t']).cr.input, wsChar c = Bool.true) ∧
    (∃ st', Parser.parse (mkParser [' ', '\n', '\t']) = .ok (.eof, st') ∧
      st'.cr.input = [] ∧ Parser.parse st' = .ok (.eof, st')) :=
  ⟨by decide, claim_C3 _ (by decide)⟩

/-- C4 (corrected): a maximal run of number characters beginning with a
sign or digit whose text the 64-bit float parse rejects makes
`Lexer::read` fail with an invalid-number error whose line/position
range spans the entire run, from its first to its last character; but
the error's text payload is the float parser's failure message
(`invalid float literal`), not the offending run text. The examples
`3.14.14`, `-3E14E1` and `--11223` each fail this way with range `1..1`,
`1..7`. -/
theorem claim_C4 :
    (∀ (c : Char) (tail rest : List Char) (l p : Nat),
      (c = '-' ∨ c.isDigit = Bool.true) → (∀ x ∈ tail, numChar x = Bool.true) →
      numBoundary rest = Bool.true → parseF64 (c :: tail) = none →
      lexReadGo ((c :: tail) ++ rest) l p =
        .error (.invalidNumber "invalid float literal" (l, l)
          (p + 1, p + (c :: tail).length))) ∧
    lexRead ⟨['3', '.', '1', '4', '.', '1', '4'], 1, 0⟩ =
      .error (.invalidNumber "invalid float literal" (1, 1) (1, 7)) ∧
    lexRead ⟨['-', '3', 'E', '1', '4', 'E', '1'], 1, 0⟩ =
      .error (.invalidNumber "invalid float literal" (1, 1) (1, 7)) ∧
    lexRead ⟨['-', '-', '1', '1', '2', '2', '3'], 1, 0⟩ =
      .error (.invalidNumber "invalid float literal" (1, 1) (1, 7)) := by
  refine ⟨fun c tail rest l p h1 h2 h3 h4 =>
    lexReadGo_number_invalid h1 h2 h3 h4 l p, ?_, ?_, ?_⟩ <;> rfl

theorem claim_C4_witness :
    (∀ x ∈ ['-', '1', '1', '2', '2', '3'], numChar x = Bool.true) ∧
    parseF64 ('-' :: ['-', '1', '1', '2', '2', '3']) = none ∧
    lexReadGo (('-' :: ['-', '1', '1', '2', '2', '3']) ++ []) 1 0 =
      .error (.invalidNumber "invalid float literal" (1, 1) (1, 7)) :=
  ⟨by decide, by decide,
    claim_C4.1 '-' ['-', '1', '1', '2', '2', '3'] [] 1 0 (Or.inl rfl)
      (by decide) rfl (by decide)⟩

/-- C4, counterexample to the frozen wording: the invalid-number error
does not carry the offending text — for the run `--11223` its text
payload is the float parser's message `invalid float literal`, which is
not the offending run text. -/
theorem claim_C4_counter :
    lexRead ⟨['-', '-', '1', '1', '2', '2', '3'], 1, 0⟩ =
      .error (.invalidNumber "invalid float literal" (1, 1) (1, 7)) ∧
    ("invalid float literal" : String) ≠ "--11223" :=
  ⟨by rfl, by decide⟩

/-- C5: a string literal whose opening quote is never followed by an
unescaped closing quote before the input ends makes the lexer fail with
an unclosed-string error whose line/position range starts at the
opening quote and ends at the point where input was exhausted. -/
theorem claim_C5 (body : List Char) (hbody : noClose body = Bool.true)
    (l p : Nat) :
    lexReadGo ('"' :: body) l p =
      .error (.unclosedStringLiteral (l, (stLP body (l, p + 1)).1)
        (p + 1, (stLP body (l, p + 1)).2)) := by
  rw [lexReadGo_stringEnter]
  exact parseStringLoop_unclosed body hbody l (p + 1) l (p + 1) []

theorem claim_C5_witness :
    noClose ['t', 'r', 'u', 'e'] = Bool.true ∧
    lexReadGo ('"' :: ['t', 'r', 'u', 'e']) 1 0 =
      .error (.unclosedStringLiteral (1, 1) (1, 5)) :=
  ⟨by decide, claim_C5 ['t', 'r', 'u', 'e'] (by decide) 1 0⟩

/-- C6: inside a string literal a backslash appends the immediately
following character to the token text verbatim, with no unescape table:
on any well-formed body the token text is the body with each backslash
dropped and the protected character kept (`stripEsc`), which maps
`\c` to `c`; lexing `"\"english\""` yields a string token whose text is
`"english"` with the literal quotes, and `\n` yields the letter `n`,
not a newline. -/
theorem claim_C6 :
    (∀ (raw rest : List Char) (l p : Nat), bodyOk raw = Bool.true →
      ∃ cr', lexReadGo ('"' :: (raw ++ '"' :: rest)) l p =
        .ok (⟨(l, (stLP raw (l, p + 1)).1), (p + 1, (stLP raw (l, p + 1)).2 + 1),
          .string (String.mk (stripEsc raw))⟩, cr')) ∧
    (∀ (c : Char) (r : List Char), stripEsc ('\\' :: c :: r) = c :: stripEsc r) ∧
    (∃ cr', lexRead ⟨['"', '\\', '"', 'e', 'n', 'g', 'l', 'i', 's', 'h',
        '\\', '"', '"'], 1, 0⟩ =
      .ok (⟨(1, 1), (1, 13), .string "\"english\""⟩, cr')) ∧
    (∃ cr', lexRead ⟨['"', '\\', 'n', '"'], 1, 0⟩ =
      .ok (⟨(1, 1), (1, 4), .string "n"⟩, cr')) := by
  refine ⟨?_, stripEsc_escape, ⟨⟨[], 1, 13⟩, by rfl⟩, ⟨⟨[], 1, 4⟩, by rfl⟩⟩
  intro raw rest l p hraw
  rw [lexReadGo_stringEnter, parseStringLoop_closed raw hraw, List.nil_append]
  exact ⟨_, rfl⟩

theorem claim_C6_witness :
    bodyOk ['\\', 'n'] = Bool.true ∧
    (∃ cr', lexReadGo ['"', '\\', 'n', '"'] 1 0 =
      .ok (⟨(1, 1), (1, 4), .string "n"⟩, cr')) :=
  ⟨rfl, claim_C6.1 ['\\', 'n'] [] 1 0 rfl⟩

/-- C7: the parse tree depends only on the token-data stream, and
discarding characters that cannot start a token (whitespace and other
stray characters between tokens) leaves the token-data stream
unchanged — so two inputs that differ only by such characters between
tokens produce the same resulting tree. -/
theorem claim_C7 :
    (∀ s1 s2 : List Char,
      tokStream ⟨s1, 1, 0⟩ = tokStream ⟨s2, 1, 0⟩ →
      treeResult s1 = treeResult s2) ∧
    (∀ (ws s : List Char) (l p : Nat), (∀ c ∈ ws, tokenStart c = false) →
      tokStream ⟨ws ++ s, l, p⟩ =
        tokStream ⟨s, (stLP ws (l, p)).1, (stLP ws (l, p)).2⟩) := by
  constructor
  · intro s1 s2 hts
    have hR : StreamEq (mkParser s1) (mkParser s2) := hts
    have hsim : ResSim (Parser.parse (mkParser s1)) (Parser.parse (mkParser s2)) :=
      (parse_sim (2 * s1.length + 3)).1 (mkParser s1) (mkParser s2)
        (2 * s2.length + 3) (by dsimp [mkParser]; omega)
        (by dsimp [mkParser]; omega) hR
    rcases h1 : Parser.parse (mkParser s1) with e1 | ⟨n1, st1⟩ <;>
      rcases h2 : Parser.parse (mkParser s2) with e2 | ⟨n2, st2⟩ <;>
      rw [h1, h2] at hsim
    · simp [treeResult, h1, h2, Except.toOption]
    · exact (hsim : False).elim
    · exact (hsim : False).elim
    · obtain ⟨hn, _⟩ := hsim
      simp [treeResult, h1, h2, hn, Except.toOption]
  · exact fun ws s l p h => tokStream_skipPrefix ws h s l p

theorem claim_C7_witness :
    tokStream ⟨['t', 'r', 'u', 'e'], 1, 0⟩ =
      tokStream ⟨[' ', 't', 'r', 'u', 'e'], 1, 0⟩ ∧
    treeResult ['t', 'r', 'u', 'e'] = treeResult [' ', 't', 'r', 'u', 'e'] :=
  ⟨by rfl, claim_C7.1 _ _ (by rfl)⟩

/-- C8: empty containers are rejected — `{}` fails with the
object-key-must-be-a-string syntax error (the token after the brace is
`}`, not a string key) and `[]` fails with the value-kind syntax error
(the token after the bracket is `]`, which cannot begin a value);
neither yields an empty object or array node. -/
theorem claim_C8 :
    Parser.parse (mkParser ['{', '}']) =
      .error (.syntaxError (1, 1) (2, 2) .objectKeyString) ∧
    Parser.parse (mkParser ['[', ']']) =
      .error (.syntaxError (1, 1) (2, 2) .valueKind) := by
  constructor <;>
    simp [Parser.parse, parseF, parseObjectF, parseArrayF, readToken, lexRead,
      lexReadGo, parseString, parseStringLoop, parseNumber, parseNumberLoop,
      numFinish, parseF64, parseStatic, staticCheck, parseDelimiter, mkParser,
      numChar, nextLP, objInsert, isValueNode, decValue, digitsToNat,
      parseExpPart, stripSign, tokenStart, CharReader.read, CharReader.consume]

/-- C9: every tree `Parser::parse` returns has its object entries in
strictly ascending key order throughout (the `BTreeMap` invariant):
iterating any parsed object's keys yields them sorted and without
duplicates, independent of their order in the input. -/
theorem claim_C9 {s : List Char} {t : Node} {st' : PState}
    (h : Parser.parse (mkParser s) = .ok (t, st')) : Sorted t :=
  (parse_sorted (2 * (mkParser s).cr.input.length + 3)).1 (mkParser s) t st' h

theorem claim_C9_witness :
    Parser.parse (mkParser ['{', '"', 'a', '"', ':', '1', '}']) =
      .ok (.object [("a", .number 1)], ⟨⟨[], 1, 7⟩, (1, 1), (7, 7)⟩) ∧
    Sorted (.object [("a", .number 1)]) := by
  have h : Parser.parse (mkParser ['{', '"', 'a', '"', ':', '1', '}']) =
      .ok (.object [("a", .number 1)], ⟨⟨[], 1, 7⟩, (1, 1), (7, 7)⟩) := by
    simp [Parser.parse, parseF, parseObjectF, parseArrayF, readToken, lexRead,
      lexReadGo, parseString, parseStringLoop, parseNumber, parseNumberLoop,
      numFinish, parseF64, parseStatic, staticCheck, parseDelimiter, mkParser,
      numChar, nextLP, objInsert, isValueNode, decValue, digitsToNat,
      parseExpPart, stripSign, tokenStart, CharReader.read, CharReader.consume,
      Rat.mkRat_one]
  exact ⟨h, claim_C9 h⟩

/-- C10: a keyword literal truncated by end of input immediately after
its first character — remaining input exactly `t`, `f` or `n` — makes
`Lexer::read` return `Ok` with the end-of-input token at the last
produced position, not an invalid-token error. -/
theorem claim_C10 :
    lexRead ⟨['t'], 1, 0⟩ = .ok (⟨(1, 1), (1, 1), .eof⟩, ⟨[], 1, 1⟩) ∧
    lexRead ⟨['f'], 1, 0⟩ = .ok (⟨(1, 1), (1, 1), .eof⟩, ⟨[], 1, 1⟩) ∧
    lexRead ⟨['n'], 1, 0⟩ = .ok (⟨(1, 1), (1, 1), .eof⟩, ⟨[], 1, 1⟩) :=
  ⟨rfl, rfl, rfl⟩

end JsonStudy
